import Mathlib

/-!
# moo.h: the call-context guard and the doubly-linked list

A shallow embedding of `moo.h` (v1.1.1).  The header is a set of C macros; the
embedding follows the text the macros expand to for one instantiation
`MOO_LIST_DEF( T, N )`.

* Pointers are natural numbers and `0` is `NULL`.  Items (`T *`) are pointers too.
* `unsigned int` is a natural number below `UINT_RANGE = 2 ^ 32`; `size++` and
  `size--` wrap explicitly.
* Memory is a pair of typed stores (list nodes, list records).  `malloc` is an
  external choice: every allocating operation takes the address that `malloc`
  returned as its first argument (`0` when `malloc` fails).  A block handed out by
  `malloc` holds indeterminate contents, which the state supplies; only the
  initialisers make them defined.
* `MOO_ERROR` in its default form calls `error( 1, 0, .. )`, which ends the process.
  An operation therefore yields either a value or an error, in both cases together
  with the memory reached at that point.
* Dereferencing `NULL` or a block that is not live is a `MemoryFault`.
* The function-pointer fields (`_call`, `get_node`, ...) are written once, by `NEW`
  and `N##_init`, and never again; calls through them are resolved statically.
-/

namespace Moo

/-- Addresses; `0` is `NULL`. -/
abbrev Ptr := Nat

/-- Number of values of `unsigned int`. -/
def UINT_RANGE : Nat := 4294967296

/-- Ways an operation can stop the program.  `ProtocolViolation` is
`MOO_ERROR("MOO struct member function called without C()")`, `AllocationError` is
`MOO_ERROR( "MOO_MALLOC failed!" )`, and `MemoryFault` is a dereference of `NULL`
or of a block that is not live. -/
inductive Err where
  | ProtocolViolation
  | AllocationError
  | MemoryFault
deriving DecidableEq, Repr

/-- Data fields of `struct _N##_node` (moo.h 160-164). -/
structure N_node where
  item : Ptr
  previous : Ptr
  next : Ptr
deriving DecidableEq, Repr

/-- Data fields of `struct _N` (moo.h 172-175). -/
structure N where
  front : Ptr
  back : Ptr
  size : Nat
deriving DecidableEq, Repr

/-- The two globals `S##_this` and `S##_C_safety` that `STRUCT_DEF( S )` declares
(moo.h 130-131). -/
structure Guard where
  S_this : Ptr
  S_C_safety : Int
deriving DecidableEq, Repr

/-- Globals have static storage: both start as zero. -/
def Guard.initial : Guard := ⟨0, 0⟩

/-- `S##_call` (moo.h 132): `S##_this = this; S##_C_safety = 1; return this;`.
Returns the value returned and the new guard. -/
def S_call (_g : Guard) (self : Ptr) : Ptr × Guard :=
  (self, { S_this := self, S_C_safety := 1 })

/-- `FUNC_THIS( S )` (moo.h 144-149) on the guard of `S`: the value bound to `this`
and the new guard, or the error raised. -/
def FUNC_THIS (g : Guard) : Except Err (Ptr × Guard) :=
  if g.S_C_safety = 0 ∨ g.S_this = 0 then
    Except.error Err.ProtocolViolation
  else
    Except.ok (g.S_this, { g with S_C_safety := 0 })

/-- The assignment `T##_C_safety = 0` that ends `NEW( T, N )` (moo.h 104). -/
def NEW_guard (g : Guard) : Guard :=
  { g with S_C_safety := 0 }

/-- Program state: the two typed stores, the guards of `N##_node` and of `N`, a history
variable `trace` that records every value `FUNC_THIS( N )` assigned to `this`, and the
contents of memory that is not live: `raw_nodes m` and `raw_lists m` are what a block at
`m` holds at the moment `malloc` hands it out.  C leaves these values indeterminate, so
they are arbitrary and no operation may rely on them. -/
structure World where
  nodes : Ptr → Option N_node
  lists : Ptr → Option N
  N_node_guard : Guard
  N_guard : Guard
  trace : List Ptr
  raw_nodes : Ptr → N_node
  raw_lists : Ptr → N

/-- Outcome of running an operation. -/
inductive Res (α : Type) where
  | ok : α → World → Res α
  | err : Err → World → Res α

/-- Operations: state transformers that may stop with an error. -/
def M (α : Type) : Type := World → Res α

instance : Monad M where
  pure a := fun w => Res.ok a w
  bind m f := fun w =>
    match m w with
    | Res.ok a w1 => f a w1
    | Res.err e w1 => Res.err e w1

/-- `MOO_ERROR` (moo.h 68-71): the process ends. -/
def MOO_ERROR {α : Type} (e : Err) : M α :=
  fun w => Res.err e w

/-- Read a node through a pointer. -/
def ld_node (p : Ptr) : M N_node := fun w =>
  if p = 0 then Res.err Err.MemoryFault w
  else match w.nodes p with
    | some nd => Res.ok nd w
    | none => Res.err Err.MemoryFault w

/-- Write fields of a node through a pointer. -/
def st_node (p : Ptr) (f : N_node → N_node) : M Unit := fun w =>
  if p = 0 then Res.err Err.MemoryFault w
  else match w.nodes p with
    | some nd => Res.ok () { w with nodes := Function.update w.nodes p (some (f nd)) }
    | none => Res.err Err.MemoryFault w

/-- Read a list record through a pointer. -/
def ld_list (p : Ptr) : M N := fun w =>
  if p = 0 then Res.err Err.MemoryFault w
  else match w.lists p with
    | some l => Res.ok l w
    | none => Res.err Err.MemoryFault w

/-- Write fields of a list record through a pointer. -/
def st_list (p : Ptr) (f : N → N) : M Unit := fun w =>
  if p = 0 then Res.err Err.MemoryFault w
  else match w.lists p with
    | some l => Res.ok () { w with lists := Function.update w.lists p (some (f l)) }
    | none => Res.err Err.MemoryFault w

/-- `free( node )` for a non-null node: the block stops being live. -/
def free_node (p : Ptr) : M Unit := fun w =>
  if p = 0 then Res.err Err.MemoryFault w
  else match w.nodes p with
    | some _ => Res.ok () { w with nodes := Function.update w.nodes p none }
    | none => Res.err Err.MemoryFault w

/-- `MOO_MALLOC( N##_node, N )` (moo.h 78-82) where `malloc` returned `m`.  The block
becomes live with the indeterminate contents `raw_nodes m`; nothing is initialised. -/
def MOO_MALLOC_N_node (m : Ptr) : M Ptr := fun w =>
  if m = 0 then Res.err Err.AllocationError w
  else Res.ok m { w with nodes := Function.update w.nodes m (some (w.raw_nodes m)) }

/-- `MOO_MALLOC( N, O )` (moo.h 78-82) where `malloc` returned `m`.  The block becomes
live with the indeterminate contents `raw_lists m`; nothing is initialised. -/
def MOO_MALLOC_N (m : Ptr) : M Ptr := fun w =>
  if m = 0 then Res.err Err.AllocationError w
  else Res.ok m { w with lists := Function.update w.lists m (some (w.raw_lists m)) }

/-- `N##_node_init` (moo.h 166-170). -/
def N_node_init (O : Ptr) : M Unit := do
  st_node O (fun nd => { nd with item := 0 })
  st_node O (fun nd => { nd with previous := 0 })
  st_node O (fun nd => { nd with next := 0 })

/-- `N##_init` (moo.h 302-319); the nine function-pointer fields are static. -/
def N_init (O : Ptr) : M Unit := do
  st_list O (fun l => { l with front := 0 })
  st_list O (fun l => { l with back := 0 })
  st_list O (fun l => { l with size := 0 })

/-- `NEW( N##_node, newNode )` (moo.h 99-105) where `malloc` returned `m`. -/
def NEW_N_node (m : Ptr) : M Ptr := do
  let newNode ← MOO_MALLOC_N_node m
  N_node_init newNode
  fun w => Res.ok newNode { w with N_node_guard := NEW_guard w.N_node_guard }

/-- `NEW( N, O )` (moo.h 99-105) where `malloc` returned `m`. -/
def NEW_N (m : Ptr) : M Ptr := do
  let O ← MOO_MALLOC_N m
  N_init O
  fun w => Res.ok O { w with N_guard := NEW_guard w.N_guard }

/-- `N##_call` (moo.h 132) on the guard of the list type. -/
def N_call (self : Ptr) : M Ptr := fun w =>
  Res.ok (S_call w.N_guard self).1 { w with N_guard := (S_call w.N_guard self).2 }

/-- `C( O )` (moo.h 93) for a list `O`: reads `O->_call` and calls it on `O`. -/
def C (O : Ptr) : M Ptr := do
  let _ ← ld_list O
  N_call O

/-- `FUNC_THIS( N )` (moo.h 144-149) inside a list member function. -/
def FUNC_THIS_N : M Ptr := fun w =>
  match FUNC_THIS w.N_guard with
  | Except.error e => Res.err e w
  | Except.ok (self, g) => Res.ok self { w with N_guard := g, trace := w.trace ++ [self] }

/-- The `while ( i < index )` loop of `N##_get_node` (moo.h 198-201), by the number
of iterations left, `index - i`. -/
def N_get_node_loop : Nat → Ptr → M Ptr
  | 0, node => pure node
  | k + 1, node => do
    let nd ← ld_node node
    N_get_node_loop k nd.next

/-- `N##_get_node` (moo.h 191-203). -/
def N_get_node (index : Nat) : M Ptr := do
  let self ← FUNC_THIS_N
  let l ← ld_list self
  if index ≥ l.size then
    pure 0
  else
    let l ← ld_list self
    N_get_node_loop index l.front

/-- `N##_get` (moo.h 205-215). -/
def N_get (index : Nat) : M Ptr := do
  let self ← FUNC_THIS_N
  let _ ← C self
  let node ← N_get_node index
  if node ≠ 0 then
    let nd ← ld_node node
    pure nd.item
  else
    pure 0

/-- `N##_insert` (moo.h 217-243) where `malloc` returned `m`. -/
def N_insert (m : Ptr) (insert_after item : Ptr) : M Unit := do
  let self ← FUNC_THIS_N
  let newNode ← NEW_N_node m
  st_node newNode (fun nd => { nd with item := item })
  if insert_after = 0 then
    st_node newNode (fun nd => { nd with previous := 0 })
    let l ← ld_list self
    st_node newNode (fun nd => { nd with next := l.front })
    let l ← ld_list self
    if l.front ≠ 0 then
      st_node l.front (fun nd => { nd with previous := newNode })
    else
      st_list self (fun l => { l with back := newNode })
    st_list self (fun l => { l with front := newNode })
  else
    st_node newNode (fun nd => { nd with previous := insert_after })
    let a ← ld_node insert_after
    st_node newNode (fun nd => { nd with next := a.next })
    let a ← ld_node insert_after
    if a.next ≠ 0 then
      st_node a.next (fun nd => { nd with previous := newNode })
    else
      st_list self (fun l => { l with back := newNode })
    st_node insert_after (fun nd => { nd with next := newNode })
  st_list self (fun l => { l with size := (l.size + 1) % UINT_RANGE })

/-- `N##_delete_node` (moo.h 245-267). -/
def N_delete_node (node : Ptr) : M Ptr := do
  let self ← FUNC_THIS_N
  if node ≠ 0 then
    let nd ← ld_node node
    let r := nd.item
    if nd.previous = 0 then
      let nd ← ld_node node
      st_list self (fun l => { l with front := nd.next })
    else
      let nd ← ld_node node
      st_node nd.previous (fun pv => { pv with next := nd.next })
    let nd ← ld_node node
    if nd.next = 0 then
      let nd ← ld_node node
      st_list self (fun l => { l with back := nd.previous })
    else
      let nd ← ld_node node
      st_node nd.next (fun nx => { nx with previous := nd.previous })
    st_list self (fun l => { l with size := (l.size + UINT_RANGE - 1) % UINT_RANGE })
    free_node node
    pure r
  else
    pure 0

/-- `N##_remove` (moo.h 269-275). -/
def N_remove (index : Nat) : M Ptr := do
  let self ← FUNC_THIS_N
  let _ ← C self
  let rNode ← N_get_node index
  let _ ← C self
  N_delete_node rNode

/-- `N##_push_front` (moo.h 277-281) where `malloc` returned `m`. -/
def N_push_front (m : Ptr) (item : Ptr) : M Unit := do
  let self ← FUNC_THIS_N
  let _ ← C self
  N_insert m 0 item

/-- `N##_pop_front` (moo.h 283-287). -/
def N_pop_front : M Ptr := do
  let self ← FUNC_THIS_N
  let _ ← C self
  let l ← ld_list self
  N_delete_node l.front

/-- `N##_push_back` (moo.h 289-293) where `malloc` returned `m`. -/
def N_push_back (m : Ptr) (item : Ptr) : M Unit := do
  let self ← FUNC_THIS_N
  let _ ← C self
  let l ← ld_list self
  N_insert m l.back item

/-- `N##_pop_back` (moo.h 295-299). -/
def N_pop_back : M Ptr := do
  let self ← FUNC_THIS_N
  let _ ← C self
  let l ← ld_list self
  N_delete_node l.back

/-- A call of a list member function, with its arguments.  Allocating operations carry
the address `malloc` returns during the call. -/
inductive Op where
  | get_node (index : Nat)
  | get (index : Nat)
  | insert (m : Ptr) (insert_after item : Ptr)
  | delete_node (node : Ptr)
  | remove (index : Nat)
  | push_front (m : Ptr) (item : Ptr)
  | pop_front
  | push_back (m : Ptr) (item : Ptr)
  | pop_back
deriving DecidableEq, Repr

/-- The member function an `Op` names, applied to its arguments; a `void` function
yields `0`. -/
def Op.run : Op → M Ptr
  | Op.get_node index => N_get_node index
  | Op.get index => N_get index
  | Op.insert m insert_after item => do N_insert m insert_after item; pure 0
  | Op.delete_node node => N_delete_node node
  | Op.remove index => N_remove index
  | Op.push_front m item => do N_push_front m item; pure 0
  | Op.pop_front => N_pop_front
  | Op.push_back m item => do N_push_back m item; pure 0
  | Op.pop_back => N_pop_back

/-- The client call `C(L)->op( args )`. -/
def exec (L : Ptr) (op : Op) : M Ptr := do
  let _ ← C L
  op.run


/-! ## The chain as a list of cells -/

/-- A cell is the address of a node together with the item the node holds. -/
abbrev Cell := Ptr × Ptr

/-- Address of the first cell, `d` for no cells. -/
def hdA : List Cell → Ptr → Ptr
  | [], d => d
  | c :: _, _ => c.1

/-- Address of the last cell, `d` for no cells. -/
def lastA : List Cell → Ptr → Ptr
  | [], d => d
  | c :: cs, _ => lastA cs c.1

/-- `Seg nodes prev cs nxt`: the cells `cs` are live non-null nodes holding their
items, linked to one another in both directions, entered from `prev` and left
towards `nxt`. -/
def Seg (nodes : Ptr → Option N_node) : Ptr → List Cell → Ptr → Prop
  | _, [], _ => True
  | prev, c :: rest, nxt =>
    c.1 ≠ 0 ∧ nodes c.1 = some ⟨c.2, prev, hdA rest nxt⟩ ∧ Seg nodes c.1 rest nxt

instance Seg.decide (nodes : Ptr → Option N_node) :
    (prev : Ptr) → (cs : List Cell) → (nxt : Ptr) → Decidable (Seg nodes prev cs nxt)
  | _, [], _ => isTrue trivial
  | prev, c :: rest, nxt =>
    have := Seg.decide nodes c.1 rest nxt
    inferInstanceAs (Decidable (c.1 ≠ 0 ∧ nodes c.1 = some ⟨c.2, prev, hdA rest nxt⟩ ∧
      Seg nodes c.1 rest nxt))

/-- The chain of a list record: `front` and `back` are the ends of `cs` (both null when
there are no cells), the first node has no predecessor, the last no successor, and no
node occurs twice (which the links already force, see `Seg_nodup`). -/
def Chain (nodes : Ptr → Option N_node) (l : N) (cs : List Cell) : Prop :=
  l.front = hdA cs 0 ∧ l.back = lastA cs 0 ∧ Seg nodes 0 cs 0 ∧ (cs.map Prod.fst).Nodup

/-- The list record at `L` owns the chain `cs` and its counter is the number of cells
as an `unsigned int`. -/
def Inv (w : World) (L : Ptr) (cs : List Cell) : Prop :=
  ∃ l, w.lists L = some l ∧ Chain w.nodes l cs ∧ l.size = cs.length % UINT_RANGE

/-- Well-formed list at `L` with cells `cs`: the chain is consistent and `size` is the
number of cells. -/
def WF (w : World) (L : Ptr) (cs : List Cell) : Prop :=
  ∃ l, w.lists L = some l ∧ Chain w.nodes l cs ∧ l.size = cs.length ∧ l.size < UINT_RANGE

/-- Items of a chain, front to back. -/
def items (cs : List Cell) : List Ptr := cs.map Prod.snd

/-- Addresses of a chain, front to back. -/
def addrs (cs : List Cell) : List Ptr := cs.map Prod.fst

/-- `p->next = v` on a node store; nothing for `p = NULL`. -/
def setNext (nodes : Ptr → Option N_node) (p v : Ptr) : Ptr → Option N_node :=
  if p = 0 then nodes
  else match nodes p with
    | some nd => Function.update nodes p (some { nd with next := v })
    | none => nodes

/-- `p->previous = v` on a node store; nothing for `p = NULL`. -/
def setPrev (nodes : Ptr → Option N_node) (p v : Ptr) : Ptr → Option N_node :=
  if p = 0 then nodes
  else match nodes p with
    | some nd => Function.update nodes p (some { nd with previous := v })
    | none => nodes

/-- Node store after splicing a new node `m` holding `x` between `a` and `nx`
(either may be null). -/
def insNodes (nodes : Ptr → Option N_node) (m a x nx : Ptr) : Ptr → Option N_node :=
  setNext (setPrev (Function.update nodes m (some ⟨x, a, nx⟩)) nx m) a m

/-- Node store after unlinking and freeing `d`, whose neighbours are `p` and `n`
(either may be null). -/
def delNodes (nodes : Ptr → Option N_node) (d p n : Ptr) : Ptr → Option N_node :=
  Function.update (setPrev (setNext nodes p n) n p) d none

/-- State after `C( L )`. -/
def World.arm (w : World) (L : Ptr) : World :=
  { w with N_guard := ⟨L, 1⟩ }

/-- State after `C( L )` followed by `FUNC_THIS( N )`. -/
def World.enter (w : World) (L : Ptr) : World :=
  { w with N_guard := ⟨L, 0⟩, trace := w.trace ++ [L] }

/-- State after `C(L)->insert( a, x )` on the list record `l`, where `malloc` returned
`m` and `nx` is the node that followed the place of insertion. -/
def World.inserted (w : World) (L : Ptr) (l : N) (m a x nx : Ptr) : World :=
  { w with
    nodes := insNodes w.nodes m a x nx
    lists := Function.update w.lists L
      (some ⟨if a = 0 then m else l.front, if nx = 0 then m else l.back,
        (l.size + 1) % UINT_RANGE⟩)
    N_node_guard := NEW_guard w.N_node_guard
    N_guard := ⟨L, 0⟩
    trace := w.trace ++ [L] }

/-- State after `C(L)->delete_node( d )` on the list record `l`, where `p` and `n` are
the neighbours of `d`. -/
def World.deleted (w : World) (L : Ptr) (l : N) (d p n : Ptr) : World :=
  { w with
    nodes := delNodes w.nodes d p n
    lists := Function.update w.lists L
      (some ⟨if p = 0 then n else l.front, if n = 0 then p else l.back,
        (l.size + UINT_RANGE - 1) % UINT_RANGE⟩)
    N_guard := ⟨L, 0⟩
    trace := w.trace ++ [L] }

/-- `NextChain nodes p ps`: following `next` from `p` until null visits exactly the
nodes `ps`, in that order. -/
def NextChain (nodes : Ptr → Option N_node) : Ptr → List Ptr → Prop
  | p, [] => p = 0
  | p, q :: rest => p = q ∧ p ≠ 0 ∧ ∃ nd, nodes p = some nd ∧ NextChain nodes nd.next rest

/-- `PrevChain nodes p ps`: following `previous` from `p` until null visits exactly the
nodes `ps`, in that order. -/
def PrevChain (nodes : Ptr → Option N_node) : Ptr → List Ptr → Prop
  | p, [] => p = 0
  | p, q :: rest => p = q ∧ p ≠ 0 ∧ ∃ nd, nodes p = some nd ∧ PrevChain nodes nd.previous rest

/-- The node `a` is currently in the list at `L`: it is met when following `next` from
`front`. -/
def InList (w : World) (L : Ptr) (a : Ptr) : Prop :=
  ∃ l ps, w.lists L = some l ∧ NextChain w.nodes l.front ps ∧ a ∈ ps

/-- What a caller owes when calling an operation on the list at `L`: a node argument
is null or a node of that list, and `malloc` hands out a non-null block that is not
live. -/
def Op.valid (w : World) (L : Ptr) : Op → Prop
  | Op.insert m insert_after _ =>
    m ≠ 0 ∧ w.nodes m = none ∧ (insert_after = 0 ∨ InList w L insert_after)
  | Op.delete_node node => node = 0 ∨ InList w L node
  | Op.push_front m _ => m ≠ 0 ∧ w.nodes m = none
  | Op.push_back m _ => m ≠ 0 ∧ w.nodes m = none
  | _ => True

/-- States reached from a freshly initialised list at `L` (`front`, `back` null and
`size` zero, as `N##_init` leaves it) by calls `C(L)->op( args )` that return. -/
inductive Reachable (L : Ptr) : World → Prop where
  | init (w : World) : w.lists L = some ⟨0, 0, 0⟩ → Reachable L w
  | step (w w1 : World) (op : Op) (r : Ptr) :
      Reachable L w → op.valid w L → exec L op w = Res.ok r w1 → Reachable L w1

/-- Chain consistency of the list at `L`, as the specification words it: `size` is the
number of nodes met from `front` by `next` and from `back` by `previous`; a list with
`size > 0` has `front->previous` and `back->next` null; a list with `size = 0` has
`front` and `back` null. -/
def ChainConsistent (w : World) (L : Ptr) : Prop :=
  ∃ l, w.lists L = some l ∧
    (∃ ps, NextChain w.nodes l.front ps ∧ ps.length = l.size) ∧
    (∃ qs, PrevChain w.nodes l.back qs ∧ qs.length = l.size) ∧
    (0 < l.size → (∃ f, w.nodes l.front = some f ∧ f.previous = 0) ∧
      (∃ b, w.nodes l.back = some b ∧ b.next = 0)) ∧
    (l.size = 0 → l.front = 0 ∧ l.back = 0)

/-- Chain consistency with the counter read as an `unsigned int`: the nodes met from
`front` by `next` are those met from `back` by `previous`, in reverse; `size` is their
number modulo `UINT_RANGE`; a list with nodes has `front->previous` and `back->next`
null; a list without nodes has `front` and `back` null. -/
def ChainConsistentMod (w : World) (L : Ptr) : Prop :=
  ∃ l, w.lists L = some l ∧ ∃ ps,
    NextChain w.nodes l.front ps ∧ PrevChain w.nodes l.back ps.reverse ∧
    l.size = ps.length % UINT_RANGE ∧
    (ps ≠ [] → (∃ f, w.nodes l.front = some f ∧ f.previous = 0) ∧
      (∃ b, w.nodes l.back = some b ∧ b.next = 0)) ∧
    (ps = [] → l.front = 0 ∧ l.back = 0)

/-- Link symmetry of the list at `L`: every node `n` of the chain is live, a non-null
`n->next` points to a node whose `previous` is `n`, and a non-null `n->previous`
points to a node whose `next` is `n`. -/
def LinkSymmetric (w : World) (L : Ptr) : Prop :=
  ∃ l ps, w.lists L = some l ∧ NextChain w.nodes l.front ps ∧
    ∀ n ∈ ps, ∃ nd, w.nodes n = some nd ∧
      (nd.next ≠ 0 → ∃ nn, w.nodes nd.next = some nn ∧ nn.previous = n) ∧
      (nd.previous ≠ 0 → ∃ np, w.nodes nd.previous = some np ∧ np.next = n)

/-- A state with no live node and one freshly initialised list, at `L`; memory that is
not live holds the values `7`, `8`, `9`. -/
def World.fresh (L : Ptr) : World :=
  { nodes := fun _ => none
    lists := fun p => if p = L then some ⟨0, 0, 0⟩ else none
    N_node_guard := Guard.initial
    N_guard := Guard.initial
    trace := []
    raw_nodes := fun _ => ⟨7, 8, 9⟩
    raw_lists := fun _ => ⟨7, 8, 9⟩ }

/-- The state an outcome carries. -/
def Res.world {α : Type} : Res α → World
  | Res.ok _ w => w
  | Res.err _ w => w

/-- State after `n` calls `C(L)->push_front( NULL )` on a fresh list, where the `k`-th
`malloc` returns address `k`. -/
def pushFronts (L : Ptr) : Nat → World
  | 0 => World.fresh L
  | n + 1 => (exec L (Op.push_front (n + 1) 0) (pushFronts L n)).world

/-- Cells of the chain that `pushFronts L n` builds: addresses `n, .., 1`. -/
def descCells : Nat → List Cell
  | 0 => []
  | n + 1 => (n + 1, 0) :: descCells n

/-- The client loop `C(L)->push_back( x )` for each item of `xs` in order, where the
calls of `malloc` return the addresses `ms` in order. -/
def pushBackAll (L : Ptr) : List Ptr → List Ptr → M Unit
  | m :: ms, x :: xs => do
    let _ ← exec L (Op.push_back m x)
    pushBackAll L ms xs
  | _, _ => pure ()

/-- The client loop of `n` calls `C(L)->pop_front()`, collecting the results. -/
def popFrontN (L : Ptr) : Nat → M (List Ptr)
  | 0 => pure []
  | n + 1 => do
    let r ← exec L Op.pop_front
    let rs ← popFrontN L n
    pure (r :: rs)

/-- The client loop of `n` calls `C(L)->pop_back()`, collecting the results. -/
def popBackN (L : Ptr) : Nat → M (List Ptr)
  | 0 => pure []
  | n + 1 => do
    let r ← exec L Op.pop_back
    let rs ← popBackN L n
    pure (r :: rs)

/-- The `size` field of the list record at `L` (`0` when there is none). -/
def N_size (w : World) (L : Ptr) : Nat :=
  match w.lists L with
  | some l => l.size
  | none => 0

/-- The `front` field of the list record at `L` (`0` when there is none). -/
def N_front (w : World) (L : Ptr) : Ptr :=
  match w.lists L with
  | some l => l.front
  | none => 0

/-- The `back` field of the list record at `L` (`0` when there is none). -/
def N_back (w : World) (L : Ptr) : Ptr :=
  match w.lists L with
  | some l => l.back
  | none => 0

/-- The node reached from `p` by following `next` exactly `k` times; `none` when the
walk would step through a null or dead link. -/
def followNext (nodes : Ptr → Option N_node) : Nat → Ptr → Option Ptr
  | 0, p => some p
  | k + 1, p =>
    if p = 0 then none
    else match nodes p with
      | some nd => followNext nodes k nd.next
      | none => none

/-- Number of times `FUNC_THIS( N )` runs during a call of the operation that returns:
once for the operation itself and once for each member function it calls. -/
def Op.binds : Op → Nat
  | Op.get_node _ => 1
  | Op.get _ => 2
  | Op.insert _ _ _ => 1
  | Op.delete_node _ => 1
  | Op.remove _ => 3
  | Op.push_front _ _ => 2
  | Op.pop_front => 2
  | Op.push_back _ _ => 2
  | Op.pop_back => 2

/-- The computation never touches the guard of the list type, never binds `this`, and
raises no `ProtocolViolation`. -/
def Quiet {α : Type} (m : M α) : Prop :=
  ∀ w, match m w with
    | Res.ok _ w1 => w1.N_guard = w.N_guard ∧ w1.trace = w.trace
    | Res.err e w1 => e ≠ Err.ProtocolViolation ∧ w1.N_guard = w.N_guard ∧ w1.trace = w.trace

/-- Started right after `C( L )`, the computation raises no `ProtocolViolation`; when
it returns, `FUNC_THIS( N )` has run `k` times, each time binding `this` to `L`, and
the guard is left consumed; when it stops early the bindings made so far were to `L`. -/
def Binds (L : Ptr) (k : Nat) {α : Type} (m : M α) : Prop :=
  ∀ w, w.N_guard = ⟨L, 1⟩ → match m w with
    | Res.ok _ w1 => w1.N_guard = ⟨L, 0⟩ ∧ w1.trace = w.trace ++ List.replicate k L
    | Res.err e w1 => e ≠ Err.ProtocolViolation ∧
        ∃ j, j ≤ k ∧ w1.trace = w.trace ++ List.replicate j L

/-- A state with two freshly initialised list records, at addresses `1` and `2`; memory
that is not live holds the values `7`, `8`, `9`. -/
def twoLists : World :=
  { nodes := fun _ => none
    lists := fun p => if p = 1 ∨ p = 2 then some ⟨0, 0, 0⟩ else none
    N_node_guard := Guard.initial
    N_guard := Guard.initial
    trace := []
    raw_nodes := fun _ => ⟨7, 8, 9⟩
    raw_lists := fun _ => ⟨7, 8, 9⟩ }

/-- What the specification says `remove` is: the node is resolved by `get_node`, then
handed to `delete_node`, each as a call of its own on the list at `L`. -/
def remove_via_get_node (L : Ptr) (index : Nat) : M Ptr := do
  let node ← exec L (Op.get_node index)
  exec L (Op.delete_node node)

/-- The items met in the chain of the list at `L`, front to back, are `s`. -/
def HasItems (w : World) (L : Ptr) (s : List Ptr) : Prop :=
  ∃ l cs, w.lists L = some l ∧ Chain w.nodes l cs ∧ items cs = s

/-- The steps of a program that touch the guard of one record type `T`. -/
inductive GuardEvent where
  | dispatch (p : Ptr)
  | bindSelf
  | construct
deriving DecidableEq, Repr

/-- One step on the guard of `T`, paired with a history variable that holds the argument
of the most recent dispatch: `dispatch p` is `T##_call( p )`, `bindSelf` is
`FUNC_THIS( T )` (no next state when it raises the error, the process has ended) and
`construct` is a `NEW( T, .. )` that returns. -/
def GuardEvent.step (s : Guard × Option Ptr) : GuardEvent → Option (Guard × Option Ptr)
  | GuardEvent.dispatch p => some ((S_call s.1 p).2, some p)
  | GuardEvent.bindSelf =>
    match FUNC_THIS s.1 with
    | Except.ok (_, g) => some (g, s.2)
    | Except.error _ => none
  | GuardEvent.construct => some (NEW_guard s.1, s.2)

/-- A sequence of guard steps, from left to right. -/
def runEvents : Guard × Option Ptr → List GuardEvent → Option (Guard × Option Ptr)
  | s, [] => some s
  | s, e :: es =>
    match e.step s with
    | some s1 => runEvents s1 es
    | none => none

/-- Every dispatch of the sequence is on a non-null record. -/
def dispatchesNonNull (es : List GuardEvent) : Prop :=
  ∀ e ∈ es, e ≠ GuardEvent.dispatch 0

instance dispatchesNonNull.decide (es : List GuardEvent) : Decidable (dispatchesNonNull es) :=
  inferInstanceAs (Decidable (∀ e ∈ es, e ≠ GuardEvent.dispatch 0))

/-- The guard invariant of the specification: an armed guard holds a non-null record,
the one most recently dispatched. -/
def GuardInv (s : Guard × Option Ptr) : Prop :=
  s.1.S_C_safety ≠ 0 → s.1.S_this ≠ 0 ∧ s.2 = some s.1.S_this

/-- Two states hold the same nodes and the same list records. -/
def SameStore (w v : World) : Prop :=
  w.nodes = v.nodes ∧ w.lists = v.lists

/-- Two states hold the same nodes, the same list records and the same guard of the
list type. -/
def SameMem (w v : World) : Prop :=
  w.nodes = v.nodes ∧ w.lists = v.lists ∧ w.N_guard = v.N_guard

/-- Two outcomes agree: both return the same value or both stop with the same error,
in states related by `R`. -/
def Agree {α : Type} (R : World → World → Prop) : Res α → Res α → Prop
  | Res.ok a w, Res.ok b v => a = b ∧ R w v
  | Res.err e w, Res.err f v => e = f ∧ R w v
  | _, _ => False

/-- The outcome of the computation depends only on the nodes, the list records and the
guard of the list type. -/
def Resp {α : Type} (m : M α) : Prop :=
  ∀ w v, SameMem w v → Agree SameMem (m w) (m v)

/-- The computation, whether it returns or stops, leaves every node and every list
record as it was. -/
def ReadOnly {α : Type} (m : M α) : Prop :=
  ∀ w, SameStore (m w).world w

/-- The two lookups, `get_node` and `get`. -/
def Op.isLookup : Op → Bool
  | Op.get_node _ => true
  | Op.get _ => true
  | _ => false

/-- The client calls `C(L)->op( args )` for each operation of a list in order,
collecting the results. -/
def execList (L : Ptr) : List Op → M (List Ptr)
  | [] => pure []
  | op :: ops => do
    let r ← exec L op
    let rs ← execList L ops
    pure (r :: rs)

/-! ## Theorems -/

theorem hdA_append (xs ys : List Cell) (d : Ptr) : hdA (xs ++ ys) d = hdA xs (hdA ys d) := by
  cases xs <;> rfl

theorem lastA_append (xs ys : List Cell) (d : Ptr) :
    lastA (xs ++ ys) d = lastA ys (lastA xs d) := by
  induction xs generalizing d with
  | nil => rfl
  | cons c xs ih => exact ih c.1

theorem Seg_append {nodes : Ptr → Option N_node} (xs ys : List Cell) (prev nxt : Ptr) :
    Seg nodes prev (xs ++ ys) nxt ↔
      Seg nodes prev xs (hdA ys nxt) ∧ Seg nodes (lastA xs prev) ys nxt := by
  induction xs generalizing prev with
  | nil => simp [Seg, lastA]
  | cons c xs ih =>
    show Seg nodes prev (c :: (xs ++ ys)) nxt ↔ _
    simp only [Seg, ih, lastA, hdA_append]
    tauto

theorem Seg_congr {nodes nodes1 : Ptr → Option N_node} {cs : List Cell} {prev nxt : Ptr}
    (h : ∀ p ∈ addrs cs, nodes1 p = nodes p) (hs : Seg nodes prev cs nxt) :
    Seg nodes1 prev cs nxt := by
  induction cs generalizing prev with
  | nil => trivial
  | cons c cs ih =>
    obtain ⟨h0, h1, h2⟩ := hs
    refine ⟨h0, ?_, ih (fun p hp => h p (by simp [addrs] at hp ⊢; exact Or.inr hp)) h2⟩
    rw [h c.1 (by simp [addrs]), h1]

theorem Seg_live {nodes : Ptr → Option N_node} {cs : List Cell} {prev nxt : Ptr}
    (hs : Seg nodes prev cs nxt) {p : Ptr} (hp : p ∈ addrs cs) :
    p ≠ 0 ∧ ∃ nd, nodes p = some nd := by
  induction cs generalizing prev with
  | nil => simp [addrs] at hp
  | cons c cs ih =>
    obtain ⟨h0, h1, h2⟩ := hs
    simp only [addrs, List.map_cons, List.mem_cons] at hp
    rcases hp with rfl | hp
    · exact ⟨h0, _, h1⟩
    · exact ih h2 hp

theorem hdA_mem {cs : List Cell} (h : cs ≠ []) (d : Ptr) : hdA cs d ∈ addrs cs := by
  cases cs with
  | nil => exact absurd rfl h
  | cons c cs => simp [hdA, addrs]

theorem lastA_mem {cs : List Cell} (h : cs ≠ []) (d : Ptr) : lastA cs d ∈ addrs cs := by
  induction cs generalizing d with
  | nil => exact absurd rfl h
  | cons c cs ih =>
    by_cases hc : cs = []
    · subst hc; simp [lastA, addrs]
    · have := ih hc c.1
      simp only [addrs, List.map_cons, List.mem_cons, lastA] at this ⊢
      exact Or.inr this

theorem hdA_eq_zero {nodes : Ptr → Option N_node} {cs : List Cell} {prev nxt : Ptr}
    (hs : Seg nodes prev cs nxt) : hdA cs 0 = 0 ↔ cs = [] := by
  constructor
  · intro h
    by_contra hc
    exact (Seg_live hs (hdA_mem hc 0)).1 h
  · rintro rfl; rfl

theorem lastA_eq_zero {nodes : Ptr → Option N_node} {cs : List Cell} {prev nxt : Ptr}
    (hs : Seg nodes prev cs nxt) : lastA cs 0 = 0 ↔ cs = [] := by
  constructor
  · intro h
    by_contra hc
    exact (Seg_live hs (lastA_mem hc 0)).1 h
  · rintro rfl; rfl

theorem Seg_update_frame {nodes : Ptr → Option N_node} {cs : List Cell} {prev nxt : Ptr}
    {k : Ptr} (v : Option N_node) (hk : k ∉ addrs cs) (hs : Seg nodes prev cs nxt) :
    Seg (Function.update nodes k v) prev cs nxt :=
  Seg_congr (fun p hp => Function.update_noteq (fun e => hk (by rw [← e]; exact hp)) _ _) hs

theorem setNext_frame {nodes : Ptr → Option N_node} {cs : List Cell} {prev nxt : Ptr}
    {k : Ptr} (v : Ptr) (hk : k ∉ addrs cs) (hs : Seg nodes prev cs nxt) :
    Seg (setNext nodes k v) prev cs nxt := by
  unfold setNext
  split
  · exact hs
  · split
    · exact Seg_update_frame _ hk hs
    · exact hs

theorem setPrev_frame {nodes : Ptr → Option N_node} {cs : List Cell} {prev nxt : Ptr}
    {k : Ptr} (v : Ptr) (hk : k ∉ addrs cs) (hs : Seg nodes prev cs nxt) :
    Seg (setPrev nodes k v) prev cs nxt := by
  unfold setPrev
  split
  · exact hs
  · split
    · exact Seg_update_frame _ hk hs
    · exact hs

/-- Redirecting the `next` link of the last node of a segment. -/
theorem Seg_setNext_last {nodes : Ptr → Option N_node} {cs : List Cell} {prev nxt : Ptr}
    (v : Ptr) (hs : Seg nodes prev cs nxt) (hnd : (addrs cs).Nodup) :
    Seg (setNext nodes (lastA cs 0) v) prev cs v := by
  induction cs generalizing prev with
  | nil => trivial
  | cons c cs ih =>
    obtain ⟨h0, h1, h2⟩ := hs
    simp only [addrs, List.map_cons, List.nodup_cons] at hnd
    by_cases hc : cs = []
    · subst hc
      refine ⟨h0, ?_, trivial⟩
      simp [lastA, setNext, h0, h1, hdA]
    · have hl : lastA (c :: cs) 0 = lastA cs 0 := by
        cases cs with
        | nil => exact absurd rfl hc
        | cons c1 cs1 => rfl
      rw [hl]
      refine ⟨h0, ?_, ih h2 hnd.2⟩
      have hne : c.1 ≠ lastA cs 0 := fun e => hnd.1 (e ▸ lastA_mem hc 0)
      have hh : hdA cs v = hdA cs nxt := by
        cases cs with
        | nil => exact absurd rfl hc
        | cons c1 cs1 => rfl
      rw [hh, ← h1]
      unfold setNext
      cases hq : nodes (lastA cs 0) with
      | none => simp
      | some nd =>
        by_cases hz : lastA cs 0 = 0
        · simp [hz]
        · simp [hz, Function.update_noteq hne]

/-- Redirecting the `previous` link of the first node of a segment. -/
theorem Seg_setPrev_head {nodes : Ptr → Option N_node} {cs : List Cell} {prev nxt : Ptr}
    (v : Ptr) (hs : Seg nodes prev cs nxt) (hnd : (addrs cs).Nodup) :
    Seg (setPrev nodes (hdA cs 0) v) v cs nxt := by
  cases cs with
  | nil => trivial
  | cons c cs =>
    obtain ⟨h0, h1, h2⟩ := hs
    simp only [addrs, List.map_cons, List.nodup_cons] at hnd
    refine ⟨h0, ?_, setPrev_frame _ hnd.1 h2⟩
    simp [hdA, setPrev, h0, h1]


theorem setNext_apply_ne {nodes : Ptr → Option N_node} {k p : Ptr} (v : Ptr) (h : p ≠ k) :
    setNext nodes k v p = nodes p := by
  unfold setNext
  by_cases hz : k = 0
  · simp [hz]
  · cases hq : nodes k with
    | none => simp [hz]
    | some nd => simp [hz, Function.update_noteq h]

theorem setPrev_apply_ne {nodes : Ptr → Option N_node} {k p : Ptr} (v : Ptr) (h : p ≠ k) :
    setPrev nodes k v p = nodes p := by
  unfold setPrev
  by_cases hz : k = 0
  · simp [hz]
  · cases hq : nodes k with
    | none => simp [hz]
    | some nd => simp [hz, Function.update_noteq h]

theorem zero_not_mem {nodes : Ptr → Option N_node} {cs : List Cell} {prev nxt : Ptr}
    (hs : Seg nodes prev cs nxt) : 0 ∉ addrs cs :=
  fun h => (Seg_live hs h).1 rfl

theorem lastA_cases (xs : List Cell) : (xs = [] ∧ lastA xs 0 = 0) ∨ (xs ≠ [] ∧ lastA xs 0 ∈ addrs xs) := by
  by_cases h : xs = []
  · subst h; exact Or.inl ⟨rfl, rfl⟩
  · exact Or.inr ⟨h, lastA_mem h 0⟩

theorem hdA_cases (xs : List Cell) : (xs = [] ∧ hdA xs 0 = 0) ∨ (xs ≠ [] ∧ hdA xs 0 ∈ addrs xs) := by
  by_cases h : xs = []
  · subst h; exact Or.inl ⟨rfl, rfl⟩
  · exact Or.inr ⟨h, hdA_mem h 0⟩

theorem hdA_of_ne_nil {xs : List Cell} (h : xs ≠ []) (d e : Ptr) : hdA xs d = hdA xs e := by
  cases xs with
  | nil => exact absurd rfl h
  | cons c cs => rfl

theorem lastA_of_ne_nil {xs : List Cell} (h : xs ≠ []) (d e : Ptr) : lastA xs d = lastA xs e := by
  cases xs with
  | nil => exact absurd rfl h
  | cons c cs => rfl

theorem addrs_append (xs ys : List Cell) : addrs (xs ++ ys) = addrs xs ++ addrs ys := by
  simp [addrs]

theorem addrs_cons (c : Cell) (ys : List Cell) : addrs (c :: ys) = c.1 :: addrs ys := rfl

/-- The last node of the left part is not a node of the right part. -/
theorem lastA_not_mem_right {nodes : Ptr → Option N_node} {xs ys : List Cell} {prev nxt : Ptr}
    (hs : Seg nodes prev ys nxt) (hnd : ∀ p, p ∈ addrs xs → p ∉ addrs ys) :
    lastA xs 0 ∉ addrs ys := by
  rcases lastA_cases xs with ⟨_, h⟩ | ⟨_, h⟩
  · rw [h]; exact zero_not_mem hs
  · exact hnd _ h

/-- The first node of the right part is not a node of the left part. -/
theorem hdA_not_mem_left {nodes : Ptr → Option N_node} {xs ys : List Cell} {prev nxt : Ptr}
    (hs : Seg nodes prev xs nxt) (hnd : ∀ p, p ∈ addrs xs → p ∉ addrs ys) :
    hdA ys 0 ∉ addrs xs := by
  rcases hdA_cases ys with ⟨_, h⟩ | ⟨_, h⟩
  · rw [h]; exact zero_not_mem hs
  · exact fun hx => hnd _ hx h

theorem Chain_insert {nodes : Ptr → Option N_node} {l : N} {xs ys : List Cell} {m : Ptr}
    (x sz : Nat) (hc : Chain nodes l (xs ++ ys)) (hm : m ≠ 0) (hf : nodes m = none) :
    Chain (insNodes nodes m (lastA xs 0) x (hdA ys 0))
      ⟨if lastA xs 0 = 0 then m else l.front, if hdA ys 0 = 0 then m else l.back, sz⟩
      (xs ++ (m, x) :: ys) := by
  obtain ⟨hfr, hbk, hseg, hnd⟩ := hc
  have hsp := (Seg_append xs ys 0 0).1 hseg
  obtain ⟨hsx, hsy⟩ := hsp
  have hnd2 : (addrs xs ++ addrs ys).Nodup := by simpa [addrs] using hnd
  have hdis : ∀ p, p ∈ addrs xs → p ∉ addrs ys := fun p hp hq =>
    (List.nodup_append.1 hnd2).2.2 hp hq
  have hmx : m ∉ addrs xs := fun h => by
    obtain ⟨_, nd, hnd⟩ := Seg_live hsx h
    rw [hf] at hnd; exact Option.noConfusion hnd
  have hmy : m ∉ addrs ys := fun h => by
    obtain ⟨_, nd, hnd⟩ := Seg_live hsy h
    rw [hf] at hnd; exact Option.noConfusion hnd
  have hnx : hdA ys 0 ≠ m := by
    rcases hdA_cases ys with ⟨_, h⟩ | ⟨_, h⟩
    · rw [h]; exact Ne.symm hm
    · exact fun e => hmy (e ▸ h)
  have ha : lastA xs 0 ≠ m := by
    rcases lastA_cases xs with ⟨_, h⟩ | ⟨_, h⟩
    · rw [h]; exact Ne.symm hm
    · exact fun e => hmx (e ▸ h)
  have hay := lastA_not_mem_right hsy hdis
  have hnxx := hdA_not_mem_left hsx hdis
  refine ⟨?_, ?_, ?_, ?_⟩
  · rw [hdA_append]
    rcases lastA_cases xs with ⟨h1, h2⟩ | ⟨h1, h2⟩
    · subst h1; simp [hdA, lastA]
    · have : lastA xs 0 ≠ 0 := fun e => zero_not_mem hsx (e ▸ h2)
      simp only [this, if_false]
      rw [hfr, hdA_append]; exact hdA_of_ne_nil h1 _ _
  · rw [lastA_append]
    show (if hdA ys 0 = 0 then m else l.back) = lastA ys m
    rcases hdA_cases ys with ⟨h1, h2⟩ | ⟨h1, h2⟩
    · subst h1; simp [hdA, lastA]
    · have : hdA ys 0 ≠ 0 := fun e => zero_not_mem hsy (e ▸ h2)
      simp only [this, if_false]
      rw [hbk, lastA_append]; exact lastA_of_ne_nil h1 _ _
  · rw [Seg_append]
    unfold insNodes
    constructor
    · show Seg _ 0 xs m
      exact Seg_setNext_last m (setPrev_frame _ hnxx (Seg_update_frame _ hmx hsx))
        (List.nodup_append.1 hnd2).1
    · refine ⟨hm, ?_, ?_⟩
      · rw [setNext_apply_ne _ (Ne.symm ha), setPrev_apply_ne _ (Ne.symm hnx)]
        simp
      · exact setNext_frame _ hay
          (Seg_setPrev_head m (Seg_update_frame _ hmy hsy) (List.nodup_append.1 hnd2).2.1)
  · have : (addrs (xs ++ (m, x) :: ys)).Nodup := by
      rw [addrs_append, addrs_cons]
      apply List.nodup_middle.2
      exact List.nodup_cons.2 ⟨by simp [hmx, hmy], hnd2⟩
    exact this

theorem Chain_delete {nodes : Ptr → Option N_node} {l : N} {xs ys : List Cell} {d x : Ptr}
    (sz : Nat) (hc : Chain nodes l (xs ++ (d, x) :: ys)) :
    Chain (delNodes nodes d (lastA xs 0) (hdA ys 0))
      ⟨if lastA xs 0 = 0 then hdA ys 0 else l.front,
       if hdA ys 0 = 0 then lastA xs 0 else l.back, sz⟩
      (xs ++ ys) := by
  obtain ⟨hfr, hbk, hseg, hnd⟩ := hc
  obtain ⟨hsx, hd0, hdn, hsy⟩ := (Seg_append xs ((d, x) :: ys) 0 0).1 hseg
  have hnd2 : (addrs xs ++ d :: addrs ys).Nodup := by simpa [addrs] using hnd
  have hnd3 := List.nodup_middle.1 hnd2
  have hnd4 := (List.nodup_cons.1 hnd3).2
  have hdx : d ∉ addrs xs := fun h => (List.nodup_cons.1 hnd3).1 (List.mem_append_left _ h)
  have hdy : d ∉ addrs ys := fun h => (List.nodup_cons.1 hnd3).1 (List.mem_append_right _ h)
  have hdis : ∀ p, p ∈ addrs xs → p ∉ addrs ys := fun p hp hq =>
    (List.nodup_append.1 hnd4).2.2 hp hq
  have hay := lastA_not_mem_right hsy hdis
  have hnxx := hdA_not_mem_left hsx hdis
  refine ⟨?_, ?_, ?_, by simpa [addrs] using hnd4⟩
  · rw [hdA_append]
    rcases lastA_cases xs with ⟨h1, h2⟩ | ⟨h1, h2⟩
    · subst h1; simp [hdA, lastA]
    · have : lastA xs 0 ≠ 0 := fun e => zero_not_mem hsx (e ▸ h2)
      simp only [this, if_false]
      rw [hfr, hdA_append]; exact hdA_of_ne_nil h1 _ _
  · rw [lastA_append]
    show (if hdA ys 0 = 0 then lastA xs 0 else l.back) = lastA ys (lastA xs 0)
    rcases hdA_cases ys with ⟨h1, h2⟩ | ⟨h1, h2⟩
    · subst h1; simp [hdA, lastA]
    · have : hdA ys 0 ≠ 0 := fun e => zero_not_mem hsy (e ▸ h2)
      simp only [this, if_false]
      rw [hbk, lastA_append]
      show lastA ys d = _
      exact lastA_of_ne_nil h1 _ _
  · rw [Seg_append]
    unfold delNodes
    constructor
    · exact Seg_update_frame _ hdx
        (setPrev_frame _ hnxx (Seg_setNext_last _ hsx (List.nodup_append.1 hnd4).1))
    · exact Seg_update_frame _ hdy
        (Seg_setPrev_head _ (setNext_frame _ hay hsy) (List.nodup_append.1 hnd4).2.1)

theorem bind_apply {α β : Type} (m : M α) (f : α → M β) (w : World) :
    (m >>= f) w = match m w with
      | Res.ok a w1 => f a w1
      | Res.err e w1 => Res.err e w1 := rfl

theorem pure_apply {α : Type} (a : α) (w : World) : (pure a : M α) w = Res.ok a w := rfl

theorem C_eq {w : World} {L : Ptr} {l : N} (hL : L ≠ 0) (hl : w.lists L = some l) :
    C L w = Res.ok L (w.arm L) := by
  simp [C, bind_apply, ld_list, hL, hl, N_call, S_call, World.arm]

theorem FUNC_THIS_N_arm {w : World} {L : Ptr} (hL : L ≠ 0) :
    FUNC_THIS_N (w.arm L) = Res.ok L (w.enter L) := by
  simp [FUNC_THIS_N, FUNC_THIS, World.arm, World.enter, hL]

theorem N_insert_eff {w : World} {L : Ptr} {l : N} {m a x nx : Ptr}
    (hL : L ≠ 0) (hl : w.lists L = some l) (hm : m ≠ 0) (hf : w.nodes m = none)
    (ha : (a = 0 ∧ nx = l.front) ∨ (a ≠ 0 ∧ ∃ na, w.nodes a = some na ∧ na.next = nx))
    (hn : nx = 0 ∨ (nx ≠ 0 ∧ ∃ nn, w.nodes nx = some nn)) :
    N_insert m a x (w.arm L) = Res.ok () (w.inserted L l m a x nx) := by
  have hnm : nx ≠ 0 → nx ≠ m := by
    intro h0 e
    rcases hn with h | ⟨_, nn, hnn⟩
    · exact h0 h
    · rw [e, hf] at hnn; exact Option.noConfusion hnn
  rcases ha with ⟨ha0, hnx⟩ | ⟨ha0, na, hna, hnx⟩
  · subst ha0
    rcases hn with h | ⟨h0, nn, hnn⟩
    · have hfr : l.front = 0 := by rw [← hnx, h]
      subst h
      simp [N_insert, bind_apply, FUNC_THIS_N_arm hL, NEW_N_node, MOO_MALLOC_N_node, hm,
        N_node_init, st_node, World.enter, ld_list, hL, hl, st_list, pure_apply, hfr,
        World.inserted, insNodes, setNext, setPrev, NEW_guard]
    · have hfr : l.front = nx := hnx.symm
      have := hnm h0
      simp [N_insert, bind_apply, FUNC_THIS_N_arm hL, NEW_N_node, MOO_MALLOC_N_node, hm,
        N_node_init, st_node, World.enter, ld_list, hL, hl, st_list, pure_apply, hfr, h0,
        World.inserted, insNodes, setNext, setPrev, NEW_guard, Function.update_noteq this, hnn]
  · have ham : a ≠ m := by
      intro e; rw [e, hf] at hna; exact Option.noConfusion hna
    rcases hn with h | ⟨h0, nn, hnn⟩
    · subst h
      simp [N_insert, bind_apply, FUNC_THIS_N_arm hL, NEW_N_node, MOO_MALLOC_N_node, hm,
        N_node_init, st_node, World.enter, ld_list, hL, hl, st_list, pure_apply, ha0,
        World.inserted, insNodes, setNext, setPrev, NEW_guard, Function.update_noteq ham,
        hna, ld_node, hnx]
    · have := hnm h0
      by_cases hxa : nx = a
      · subst hxa
        simp [N_insert, bind_apply, FUNC_THIS_N_arm hL, NEW_N_node, MOO_MALLOC_N_node, hm,
          N_node_init, st_node, World.enter, ld_list, hL, hl, st_list, pure_apply, ha0,
          World.inserted, insNodes, setNext, setPrev, NEW_guard, Function.update_noteq ham,
          hna, ld_node, hnx]
      · simp [N_insert, bind_apply, FUNC_THIS_N_arm hL, NEW_N_node, MOO_MALLOC_N_node, hm,
          N_node_init, st_node, World.enter, ld_list, hL, hl, st_list, pure_apply, ha0, h0,
          World.inserted, insNodes, setNext, setPrev, NEW_guard, Function.update_noteq ham,
          Function.update_noteq this, hna, hnn, ld_node, hnx, Function.update_noteq hxa,
          Function.update_noteq (Ne.symm hxa)]

theorem N_delete_node_eff {w : World} {L : Ptr} {l : N} {d : Ptr} {nd : N_node}
    (hL : L ≠ 0) (hl : w.lists L = some l) (hd : d ≠ 0) (hnd : w.nodes d = some nd)
    (hp : nd.previous = 0 ∨
      (nd.previous ≠ 0 ∧ nd.previous ≠ d ∧ ∃ np, w.nodes nd.previous = some np))
    (hn : nd.next = 0 ∨ (nd.next ≠ 0 ∧ nd.next ≠ d ∧ nd.next ≠ nd.previous ∧
      ∃ nn, w.nodes nd.next = some nn)) :
    N_delete_node d (w.arm L) = Res.ok nd.item (w.deleted L l d nd.previous nd.next) := by
  rcases hp with hp0 | ⟨hp0, hpd, np, hnp⟩
  · rcases hn with hn0 | ⟨hn0, hnd1, _, nn, hnn⟩
    · simp [N_delete_node, bind_apply, FUNC_THIS_N_arm hL, hd, ld_node, World.enter, hnd, hp0,
        hn0, st_list, hL, hl, free_node, pure_apply, World.deleted, delNodes, setNext, setPrev]
    · simp [N_delete_node, bind_apply, FUNC_THIS_N_arm hL, hd, ld_node, World.enter, hnd, hp0,
        hn0, st_list, hL, hl, free_node, pure_apply, World.deleted, delNodes, setNext, setPrev,
        st_node, hnn, Function.update_noteq hnd1, Function.update_noteq (Ne.symm hnd1)]
  · rcases hn with hn0 | ⟨hn0, hnd1, hpn, nn, hnn⟩
    · simp [N_delete_node, bind_apply, FUNC_THIS_N_arm hL, hd, ld_node, World.enter, hnd, hp0,
        hn0, st_list, hL, hl, free_node, pure_apply, World.deleted, delNodes, setNext, setPrev,
        st_node, hnp, Function.update_noteq hpd, Function.update_noteq (Ne.symm hpd)]
    · simp [N_delete_node, bind_apply, FUNC_THIS_N_arm hL, hd, ld_node, World.enter, hnd,
        hp0, hn0, st_list, hL, hl, free_node, pure_apply, World.deleted, delNodes, setNext,
        setPrev, st_node, hnp, hnn, Function.update_noteq hpd,
        Function.update_noteq (Ne.symm hpd), Function.update_noteq hnd1,
        Function.update_noteq (Ne.symm hnd1), Function.update_noteq hpn,
        Function.update_noteq (Ne.symm hpn)]

theorem N_delete_node_null {w : World} {L : Ptr} (hL : L ≠ 0) :
    N_delete_node 0 (w.arm L) = Res.ok 0 (w.enter L) := by
  simp [N_delete_node, bind_apply, FUNC_THIS_N_arm hL, pure_apply]

theorem N_get_node_loop_eq {w : World} {cs : List Cell} {prev nxt : Ptr}
    (hs : Seg w.nodes prev cs nxt) {i : Nat} {r : Ptr} (hr : (addrs cs)[i]? = some r) :
    N_get_node_loop i (hdA cs nxt) w = Res.ok r w := by
  induction cs generalizing prev i with
  | nil => simp [addrs] at hr
  | cons c cs ih =>
    obtain ⟨h0, h1, h2⟩ := hs
    cases i with
    | zero =>
      simp only [addrs, List.map_cons, List.getElem?_cons_zero, Option.some.injEq] at hr
      subst hr
      rfl
    | succ i =>
      simp only [addrs, List.map_cons, List.getElem?_cons_succ] at hr
      have := ih h2 hr
      show (ld_node c.1 >>= fun nd => N_get_node_loop i nd.next) w = _
      simp [bind_apply, ld_node, h0, h1, this]

theorem N_get_node_eff {w : World} {L : Ptr} {l : N} {cs : List Cell}
    (hL : L ≠ 0) (hl : w.lists L = some l) (hc : Chain w.nodes l cs)
    (hsz : l.size ≤ cs.length) (i : Nat) :
    N_get_node i (w.arm L) =
      Res.ok (if i < l.size then (addrs cs).getD i 0 else 0) (w.enter L) := by
  obtain ⟨hfr, _, hseg, _⟩ := hc
  by_cases hi : i < l.size
  · have hlt : i < (addrs cs).length := by simp [addrs]; omega
    have hr : (addrs cs)[i]? = some ((addrs cs).getD i 0) := by
      rw [List.getD_eq_getElem?_getD, List.getElem?_eq_getElem hlt]; rfl
    have hs : Seg (w.enter L).nodes 0 cs 0 := hseg
    have := N_get_node_loop_eq hs hr
    simp [N_get_node, bind_apply, FUNC_THIS_N_arm hL, ld_list, hL, World.enter, hl, hi,
      Nat.not_le.2 hi, hfr]
    simpa [World.enter] using this
  · simp [N_get_node, bind_apply, FUNC_THIS_N_arm hL, ld_list, hL, World.enter, hl, hi,
      Nat.not_lt.1 hi, pure_apply]

theorem Seg_last_next {nodes : Ptr → Option N_node} {xs : List Cell} {prev nxt : Ptr}
    (hs : Seg nodes prev xs nxt) (hx : xs ≠ []) :
    ∃ na, nodes (lastA xs 0) = some na ∧ na.next = nxt := by
  induction xs generalizing prev with
  | nil => exact absurd rfl hx
  | cons c cs ih =>
    obtain ⟨h0, h1, h2⟩ := hs
    by_cases hc : cs = []
    · subst hc
      exact ⟨_, h1, rfl⟩
    · obtain ⟨na, hna, hn⟩ := ih h2 hc
      refine ⟨na, ?_, hn⟩
      rw [← hna]
      show nodes (lastA cs c.1) = _
      rw [lastA_of_ne_nil hc c.1 0]

theorem Chain_disjoint {nodes : Ptr → Option N_node} {l : N} {xs ys : List Cell}
    (hc : Chain nodes l (xs ++ ys)) : ∀ p, p ∈ addrs xs → p ∉ addrs ys := by
  intro p hp hq
  have h : (addrs xs ++ addrs ys).Nodup := by simpa [addrs] using hc.2.2.2
  exact (List.nodup_append.1 h).2.2 hp hq

theorem insert_run {w : World} {L : Ptr} {l : N} {xs ys : List Cell} {m : Ptr} (x : Ptr)
    (hL : L ≠ 0) (hl : w.lists L = some l) (hc : Chain w.nodes l (xs ++ ys))
    (hm : m ≠ 0) (hf : w.nodes m = none) :
    N_insert m (lastA xs 0) x (w.arm L) =
      Res.ok () (w.inserted L l m (lastA xs 0) x (hdA ys 0)) := by
  obtain ⟨hsx, hsy⟩ := (Seg_append xs ys 0 0).1 hc.2.2.1
  apply N_insert_eff hL hl hm hf
  · rcases lastA_cases xs with ⟨h1, h2⟩ | ⟨h1, h2⟩
    · left
      subst h1
      exact ⟨h2, hc.1.symm⟩
    · right
      exact ⟨(Seg_live hsx h2).1, Seg_last_next hsx h1⟩
  · rcases hdA_cases ys with ⟨h1, h2⟩ | ⟨h1, h2⟩
    · exact Or.inl h2
    · exact Or.inr (Seg_live hsy h2)

theorem inserted_Inv {w : World} {L : Ptr} {l : N} (xs ys : List Cell) {m : Ptr} (x : Ptr)
    (hc : Chain w.nodes l (xs ++ ys))
    (hsz : l.size = (xs ++ ys).length % UINT_RANGE) (hm : m ≠ 0) (hf : w.nodes m = none) :
    Inv (w.inserted L l m (lastA xs 0) x (hdA ys 0)) L (xs ++ (m, x) :: ys) := by
  refine ⟨⟨if lastA xs 0 = 0 then m else l.front, if hdA ys 0 = 0 then m else l.back,
    (l.size + 1) % UINT_RANGE⟩, by simp [World.inserted], Chain_insert x _ hc hm hf, ?_⟩
  simp only [List.length_append, List.length_cons, UINT_RANGE] at hsz ⊢
  omega

theorem delete_run {w : World} {L : Ptr} {l : N} {xs ys : List Cell} {d x : Ptr}
    (hL : L ≠ 0) (hl : w.lists L = some l) (hc : Chain w.nodes l (xs ++ (d, x) :: ys)) :
    N_delete_node d (w.arm L) = Res.ok x (w.deleted L l d (lastA xs 0) (hdA ys 0)) := by
  obtain ⟨hsx, hd0, hdn, hsy⟩ := (Seg_append xs ((d, x) :: ys) 0 0).1 hc.2.2.1
  have hnd : (addrs xs ++ d :: addrs ys).Nodup := by simpa [addrs] using hc.2.2.2
  have hnd3 := List.nodup_middle.1 hnd
  have hdx : d ∉ addrs xs := fun h => (List.nodup_cons.1 hnd3).1 (List.mem_append_left _ h)
  have hdy : d ∉ addrs ys := fun h => (List.nodup_cons.1 hnd3).1 (List.mem_append_right _ h)
  have hdis : ∀ p, p ∈ addrs xs → p ∉ addrs ys := fun p hp hq =>
    (List.nodup_append.1 (List.nodup_cons.1 hnd3).2).2.2 hp hq
  have h := @N_delete_node_eff w L l d ⟨x, lastA xs 0, hdA ys 0⟩ hL hl hd0 hdn
  apply h
  · rcases lastA_cases xs with ⟨h1, h2⟩ | ⟨h1, h2⟩
    · exact Or.inl h2
    · refine Or.inr ⟨(Seg_live hsx h2).1, fun e => hdx ?_, (Seg_live hsx h2).2⟩
      have e1 : lastA xs 0 = d := e
      rw [← e1]; exact h2
  · rcases hdA_cases ys with ⟨h1, h2⟩ | ⟨h1, h2⟩
    · exact Or.inl h2
    · refine Or.inr ⟨(Seg_live hsy h2).1, fun e => hdy ?_, ?_, (Seg_live hsy h2).2⟩
      · have e1 : hdA ys 0 = d := e
        rw [← e1]; exact h2
      · intro e
        have e1 : hdA ys 0 = lastA xs 0 := e
        rcases lastA_cases xs with ⟨h3, h4⟩ | ⟨h3, h4⟩
        · exact (Seg_live hsy h2).1 (by rw [e1, h4])
        · exact hdis _ h4 (by rw [← e1]; exact h2)

theorem deleted_Inv {w : World} {L : Ptr} {l : N} (xs ys : List Cell) {d x : Ptr}
    (hc : Chain w.nodes l (xs ++ (d, x) :: ys))
    (hsz : l.size = (xs ++ (d, x) :: ys).length % UINT_RANGE) :
    Inv (w.deleted L l d (lastA xs 0) (hdA ys 0)) L (xs ++ ys) := by
  refine ⟨⟨if lastA xs 0 = 0 then hdA ys 0 else l.front,
    if hdA ys 0 = 0 then lastA xs 0 else l.back, (l.size + UINT_RANGE - 1) % UINT_RANGE⟩,
    by simp [World.deleted], Chain_delete _ hc, ?_⟩
  simp only [List.length_append, List.length_cons, UINT_RANGE] at hsz ⊢
  omega

theorem Seg_getD {nodes : Ptr → Option N_node} {cs : List Cell} {prev nxt : Ptr}
    (hs : Seg nodes prev cs nxt) {i : Nat} (hi : i < cs.length) :
    (addrs cs).getD i 0 ≠ 0 ∧
      ∃ nd, nodes ((addrs cs).getD i 0) = some nd ∧ nd.item = (items cs).getD i 0 := by
  induction cs generalizing prev i with
  | nil => simp at hi
  | cons c cs ih =>
    obtain ⟨h0, h1, h2⟩ := hs
    cases i with
    | zero => exact ⟨h0, _, h1, rfl⟩
    | succ i =>
      have := ih h2 (Nat.lt_of_succ_lt_succ hi)
      simpa [addrs, items] using this

theorem split_at {cs : List Cell} {i : Nat} (hi : i < cs.length) :
    ∃ xs ys, cs = xs ++ ((addrs cs).getD i 0, (items cs).getD i 0) :: ys ∧ xs.length = i := by
  induction cs generalizing i with
  | nil => simp at hi
  | cons c cs ih =>
    cases i with
    | zero => exact ⟨[], cs, rfl, rfl⟩
    | succ i =>
      obtain ⟨xs, ys, h1, h2⟩ := ih (Nat.lt_of_succ_lt_succ hi)
      refine ⟨c :: xs, ys, ?_, by simp [h2]⟩
      simp only [addrs, items, List.map_cons, List.getD_cons_succ, List.cons_append,
        List.cons.injEq, true_and]
      exact h1

theorem addrs_getD_mid (xs ys : List Cell) (d x : Ptr) :
    (addrs (xs ++ (d, x) :: ys)).getD xs.length 0 = d := by
  induction xs with
  | nil => rfl
  | cons c xs ih => simpa [addrs] using ih

theorem N_get_run {w : World} {L : Ptr} {l : N} {cs : List Cell}
    (hL : L ≠ 0) (hl : w.lists L = some l) (hc : Chain w.nodes l cs)
    (hsz : l.size ≤ cs.length) (i : Nat) :
    N_get i (w.arm L) =
      Res.ok (if i < l.size then (items cs).getD i 0 else 0) ((w.enter L).enter L) := by
  have hl1 : (w.enter L).lists L = some l := hl
  have hc1 : Chain (w.enter L).nodes l cs := hc
  have hg := N_get_node_eff hL hl1 hc1 hsz i
  by_cases hi : i < l.size
  · obtain ⟨h0, nd, hnd, hit⟩ := Seg_getD hc.2.2.1 (Nat.lt_of_lt_of_le hi hsz)
    have hnd1 : ((w.enter L).enter L).nodes ((addrs cs).getD i 0) = some nd := hnd
    simp only [hi, if_true] at hg ⊢
    rw [← hit]
    generalize (addrs cs).getD i 0 = r at hg h0 hnd1
    simp [N_get, bind_apply, FUNC_THIS_N_arm hL, C_eq hL hl1, hg, h0, ld_node, hnd1,
      pure_apply]
  · simp only [hi, if_false] at hg ⊢
    simp [N_get, bind_apply, FUNC_THIS_N_arm hL, C_eq hL hl1, hg, pure_apply]

theorem N_remove_run_hit {w : World} {L : Ptr} {l : N} {xs ys : List Cell} {d x : Ptr}
    (hL : L ≠ 0) (hl : w.lists L = some l) (hc : Chain w.nodes l (xs ++ (d, x) :: ys))
    (hsz : l.size ≤ (xs ++ (d, x) :: ys).length) (hi : xs.length < l.size) :
    N_remove xs.length (w.arm L) =
      Res.ok x (((w.enter L).enter L).deleted L l d (lastA xs 0) (hdA ys 0)) := by
  have hl1 : (w.enter L).lists L = some l := hl
  have hc1 : Chain (w.enter L).nodes l (xs ++ (d, x) :: ys) := hc
  have hg := N_get_node_eff hL hl1 hc1 hsz xs.length
  have hl2 : ((w.enter L).enter L).lists L = some l := hl
  have hc2 : Chain ((w.enter L).enter L).nodes l (xs ++ (d, x) :: ys) := hc
  have hd := delete_run hL hl2 hc2
  have hgd : (addrs (xs ++ (d, x) :: ys)).getD xs.length 0 = d := addrs_getD_mid xs ys d x
  simp only [hi, if_true, hgd] at hg
  simp [N_remove, bind_apply, FUNC_THIS_N_arm hL, C_eq hL hl1, hg, C_eq hL hl2, hd]

theorem N_remove_run_miss {w : World} {L : Ptr} {l : N} {cs : List Cell}
    (hL : L ≠ 0) (hl : w.lists L = some l) (hc : Chain w.nodes l cs)
    (hsz : l.size ≤ cs.length) {i : Nat} (hi : l.size ≤ i) :
    N_remove i (w.arm L) = Res.ok 0 (((w.enter L).enter L).enter L) := by
  have hl1 : (w.enter L).lists L = some l := hl
  have hc1 : Chain (w.enter L).nodes l cs := hc
  have hg := N_get_node_eff hL hl1 hc1 hsz i
  have hl2 : ((w.enter L).enter L).lists L = some l := hl
  simp only [Nat.not_lt.2 hi, if_false] at hg
  simp [N_remove, bind_apply, FUNC_THIS_N_arm hL, C_eq hL hl1, hg, C_eq hL hl2,
    N_delete_node_null hL]

theorem N_push_front_run {w : World} {L : Ptr} {l : N} {cs : List Cell} {m : Ptr} (x : Ptr)
    (hL : L ≠ 0) (hl : w.lists L = some l) (hc : Chain w.nodes l cs)
    (hm : m ≠ 0) (hf : w.nodes m = none) :
    N_push_front m x (w.arm L) = Res.ok () ((w.enter L).inserted L l m 0 x (hdA cs 0)) := by
  have hl1 : (w.enter L).lists L = some l := hl
  have hc1 : Chain (w.enter L).nodes l ([] ++ cs) := hc
  have hf1 : (w.enter L).nodes m = none := hf
  have hi := insert_run x hL hl1 hc1 hm hf1
  simp only [lastA] at hi
  simp [N_push_front, bind_apply, FUNC_THIS_N_arm hL, C_eq hL hl1, hi]

theorem N_push_back_run {w : World} {L : Ptr} {l : N} {cs : List Cell} {m : Ptr} (x : Ptr)
    (hL : L ≠ 0) (hl : w.lists L = some l) (hc : Chain w.nodes l cs)
    (hm : m ≠ 0) (hf : w.nodes m = none) :
    N_push_back m x (w.arm L) = Res.ok () ((w.enter L).inserted L l m (lastA cs 0) x 0) := by
  have hl1 : (w.enter L).lists L = some l := hl
  have hl2 : ((w.enter L).arm L).lists L = some l := hl
  have hc1 : Chain (w.enter L).nodes l (cs ++ []) := by rw [List.append_nil]; exact hc
  have hf1 : (w.enter L).nodes m = none := hf
  have hi := insert_run x hL hl1 hc1 hm hf1
  simp only [hdA] at hi
  simp [N_push_back, bind_apply, FUNC_THIS_N_arm hL, C_eq hL hl1, ld_list, hL, hl2, hc.2.1, hi]

theorem N_pop_front_run_cons {w : World} {L : Ptr} {l : N} {ys : List Cell} {d x : Ptr}
    (hL : L ≠ 0) (hl : w.lists L = some l) (hc : Chain w.nodes l ((d, x) :: ys)) :
    N_pop_front (w.arm L) = Res.ok x ((w.enter L).deleted L l d 0 (hdA ys 0)) := by
  have hl1 : (w.enter L).lists L = some l := hl
  have hl2 : ((w.enter L).arm L).lists L = some l := hl
  have hc1 : Chain (w.enter L).nodes l ([] ++ (d, x) :: ys) := hc
  have hd := delete_run hL hl1 hc1
  simp only [lastA] at hd
  have hfr : l.front = d := hc.1
  simp [N_pop_front, bind_apply, FUNC_THIS_N_arm hL, C_eq hL hl1, ld_list, hL, hl2, hfr, hd]

theorem N_pop_front_run_nil {w : World} {L : Ptr} {l : N}
    (hL : L ≠ 0) (hl : w.lists L = some l) (hc : Chain w.nodes l []) :
    N_pop_front (w.arm L) = Res.ok 0 ((w.enter L).enter L) := by
  have hl1 : (w.enter L).lists L = some l := hl
  have hl2 : ((w.enter L).arm L).lists L = some l := hl
  have hfr : l.front = 0 := hc.1
  simp [N_pop_front, bind_apply, FUNC_THIS_N_arm hL, C_eq hL hl1, ld_list, hL, hl2, hfr,
    N_delete_node_null hL]

theorem N_pop_back_run_snoc {w : World} {L : Ptr} {l : N} {xs : List Cell} {d x : Ptr}
    (hL : L ≠ 0) (hl : w.lists L = some l) (hc : Chain w.nodes l (xs ++ [(d, x)])) :
    N_pop_back (w.arm L) = Res.ok x ((w.enter L).deleted L l d (lastA xs 0) 0) := by
  have hl1 : (w.enter L).lists L = some l := hl
  have hl2 : ((w.enter L).arm L).lists L = some l := hl
  have hc1 : Chain (w.enter L).nodes l (xs ++ (d, x) :: []) := hc
  have hd := delete_run hL hl1 hc1
  simp only [hdA] at hd
  have hbk : l.back = d := by rw [hc.2.1, lastA_append]; rfl
  simp [N_pop_back, bind_apply, FUNC_THIS_N_arm hL, C_eq hL hl1, ld_list, hL, hl2, hbk, hd]

theorem N_pop_back_run_nil {w : World} {L : Ptr} {l : N}
    (hL : L ≠ 0) (hl : w.lists L = some l) (hc : Chain w.nodes l []) :
    N_pop_back (w.arm L) = Res.ok 0 ((w.enter L).enter L) := by
  have hl1 : (w.enter L).lists L = some l := hl
  have hl2 : ((w.enter L).arm L).lists L = some l := hl
  have hbk : l.back = 0 := hc.2.1
  simp [N_pop_back, bind_apply, FUNC_THIS_N_arm hL, C_eq hL hl1, ld_list, hL, hl2, hbk,
    N_delete_node_null hL]

theorem NextChain_of_Seg {nodes : Ptr → Option N_node} {cs : List Cell} {prev : Ptr}
    (hs : Seg nodes prev cs 0) : NextChain nodes (hdA cs 0) (addrs cs) := by
  induction cs generalizing prev with
  | nil => rfl
  | cons c cs ih =>
    obtain ⟨h0, h1, h2⟩ := hs
    exact ⟨rfl, h0, _, h1, ih h2⟩

theorem PrevChain_of_Seg {nodes : Ptr → Option N_node} {cs : List Cell} {nxt : Ptr}
    (hs : Seg nodes 0 cs nxt) : PrevChain nodes (lastA cs 0) (addrs cs).reverse := by
  induction cs using List.reverseRecOn generalizing nxt with
  | nil => rfl
  | append_singleton xs c ih =>
    obtain ⟨hsx, h0, h1, _⟩ := (Seg_append xs [c] 0 nxt).1 hs
    have hl : lastA (xs ++ [c]) 0 = c.1 := by rw [lastA_append]; rfl
    have hr : (addrs (xs ++ [c])).reverse = c.1 :: (addrs xs).reverse := by
      simp [addrs]
    rw [hl, hr]
    exact ⟨rfl, h0, _, h1, ih hsx⟩

theorem NextChain_unique {nodes : Ptr → Option N_node} {p : Ptr} {ps qs : List Ptr}
    (h1 : NextChain nodes p ps) (h2 : NextChain nodes p qs) : ps = qs := by
  induction ps generalizing p qs with
  | nil =>
    cases qs with
    | nil => rfl
    | cons q qs => exact absurd h1 h2.2.1
  | cons a ps ih =>
    cases qs with
    | nil => exact absurd h2 h1.2.1
    | cons q qs =>
      obtain ⟨e1, _, nd1, hn1, hr1⟩ := h1
      obtain ⟨e2, _, nd2, hn2, hr2⟩ := h2
      rw [hn1] at hn2
      cases hn2
      rw [← e1, ← e2, ih hr1 hr2]

theorem mem_addrs_split {cs : List Cell} {a : Ptr} (h : a ∈ addrs cs) :
    ∃ xs x ys, cs = xs ++ (a, x) :: ys := by
  obtain ⟨c, hc, rfl⟩ := List.mem_map.1 h
  obtain ⟨xs, ys, rfl⟩ := List.append_of_mem hc
  exact ⟨xs, c.2, ys, rfl⟩

theorem InList_split {w : World} {L : Ptr} {l : N} {cs : List Cell} {a : Ptr}
    (hl : w.lists L = some l) (hc : Chain w.nodes l cs) (h : InList w L a) :
    ∃ xs x ys, cs = xs ++ (a, x) :: ys := by
  obtain ⟨l1, ps, hl1, hn, ha⟩ := h
  rw [hl] at hl1
  cases hl1
  have := NextChain_unique hn (by rw [hc.1]; exact NextChain_of_Seg hc.2.2.1)
  exact mem_addrs_split (this ▸ ha)

theorem exec_ne_zero {w w1 : World} {L r : Ptr} {op : Op}
    (he : exec L op w = Res.ok r w1) : L ≠ 0 := by
  rintro rfl
  simp [exec, bind_apply, C, ld_list] at he

theorem exec_eq {w : World} {L : Ptr} {l : N} (hL : L ≠ 0) (hl : w.lists L = some l)
    (op : Op) : exec L op w = op.run (w.arm L) := by
  simp [exec, bind_apply, C_eq hL hl]

theorem mod_le_length (cs : List Cell) {n : Nat} (h : n = cs.length % UINT_RANGE) :
    n ≤ cs.length := h ▸ Nat.mod_le _ _

/-- Every operation called as the caller owes keeps the chain consistent and the
counter equal to the number of nodes as an `unsigned int`. -/
theorem exec_Inv {w w1 : World} {L r : Ptr} {op : Op} {cs : List Cell}
    (hI : Inv w L cs) (hv : op.valid w L) (he : exec L op w = Res.ok r w1) :
    ∃ cs1, Inv w1 L cs1 := by
  obtain ⟨l, hl, hc, hsz⟩ := hI
  have hL := exec_ne_zero he
  rw [exec_eq hL hl] at he
  have hle := mod_le_length cs hsz
  cases op with
  | get_node i =>
    simp only [Op.run, N_get_node_eff hL hl hc hle, Res.ok.injEq] at he
    obtain ⟨-, rfl⟩ := he
    exact ⟨cs, l, hl, hc, hsz⟩
  | get i =>
    simp only [Op.run, N_get_run hL hl hc hle, Res.ok.injEq] at he
    obtain ⟨-, rfl⟩ := he
    exact ⟨cs, l, hl, hc, hsz⟩
  | insert m a x =>
    obtain ⟨hm, hf, ha⟩ := hv
    rcases ha with rfl | ha
    · have hc1 : Chain w.nodes l ([] ++ cs) := hc
      have hr := insert_run x hL hl hc1 hm hf
      simp only [lastA] at hr
      simp only [Op.run, bind_apply, hr, pure_apply, Res.ok.injEq] at he
      obtain ⟨-, rfl⟩ := he
      exact ⟨_, inserted_Inv [] cs x hc1 hsz hm hf⟩
    · obtain ⟨xs, xa, ys, rfl⟩ := InList_split hl hc ha
      have hc1 : Chain w.nodes l ((xs ++ [(a, xa)]) ++ ys) := by simpa using hc
      have hsz1 : l.size = ((xs ++ [(a, xa)]) ++ ys).length % UINT_RANGE := by simpa using hsz
      have hla : lastA (xs ++ [(a, xa)]) 0 = a := by rw [lastA_append]; rfl
      have hr := insert_run x hL hl hc1 hm hf
      have hi := inserted_Inv (L := L) (xs ++ [(a, xa)]) ys x hc1 hsz1 hm hf
      rw [hla] at hr hi
      simp only [Op.run, bind_apply, hr, pure_apply, Res.ok.injEq] at he
      obtain ⟨-, rfl⟩ := he
      exact ⟨_, hi⟩
  | delete_node d =>
    rcases hv with rfl | hd
    · simp only [Op.run, N_delete_node_null hL, Res.ok.injEq] at he
      obtain ⟨-, rfl⟩ := he
      exact ⟨cs, l, hl, hc, hsz⟩
    · obtain ⟨xs, x, ys, rfl⟩ := InList_split hl hc hd
      simp only [Op.run, delete_run hL hl hc, Res.ok.injEq] at he
      obtain ⟨-, rfl⟩ := he
      exact ⟨_, deleted_Inv xs ys hc hsz⟩
  | remove i =>
    by_cases hi : i < l.size
    · obtain ⟨xs, ys, hcs, hlen⟩ := split_at (Nat.lt_of_lt_of_le hi hle)
      rw [hcs] at hc hsz hle
      subst hlen
      simp only [Op.run, N_remove_run_hit hL hl hc hle hi, Res.ok.injEq] at he
      obtain ⟨-, rfl⟩ := he
      exact ⟨_, deleted_Inv (w := (w.enter L).enter L) xs ys hc hsz⟩
    · simp only [Op.run, N_remove_run_miss hL hl hc hle (Nat.not_lt.1 hi), Res.ok.injEq] at he
      obtain ⟨-, rfl⟩ := he
      exact ⟨cs, l, hl, hc, hsz⟩
  | push_front m x =>
    obtain ⟨hm, hf⟩ := hv
    simp only [Op.run, bind_apply, N_push_front_run x hL hl hc hm hf, pure_apply,
      Res.ok.injEq] at he
    obtain ⟨-, rfl⟩ := he
    have hc1 : Chain (w.enter L).nodes l ([] ++ cs) := hc
    exact ⟨_, inserted_Inv (w := w.enter L) [] cs x hc1 hsz hm hf⟩
  | push_back m x =>
    obtain ⟨hm, hf⟩ := hv
    simp only [Op.run, bind_apply, N_push_back_run x hL hl hc hm hf, pure_apply,
      Res.ok.injEq] at he
    obtain ⟨-, rfl⟩ := he
    have hc1 : Chain (w.enter L).nodes l (cs ++ []) := by rw [List.append_nil]; exact hc
    have hsz1 : l.size = (cs ++ []).length % UINT_RANGE := by rw [List.append_nil]; exact hsz
    exact ⟨_, inserted_Inv (w := w.enter L) cs [] x hc1 hsz1 hm hf⟩
  | pop_front =>
    cases cs with
    | nil =>
      simp only [Op.run, N_pop_front_run_nil hL hl hc, Res.ok.injEq] at he
      obtain ⟨-, rfl⟩ := he
      exact ⟨[], l, hl, hc, hsz⟩
    | cons c ys =>
      obtain ⟨d, x⟩ := c
      simp only [Op.run, N_pop_front_run_cons hL hl hc, Res.ok.injEq] at he
      obtain ⟨-, rfl⟩ := he
      have hc1 : Chain (w.enter L).nodes l ([] ++ (d, x) :: ys) := hc
      exact ⟨_, deleted_Inv (w := w.enter L) [] ys hc1 hsz⟩
  | pop_back =>
    rcases List.eq_nil_or_concat cs with rfl | ⟨xs, c, rfl⟩
    · simp only [Op.run, N_pop_back_run_nil hL hl hc, Res.ok.injEq] at he
      obtain ⟨-, rfl⟩ := he
      exact ⟨[], l, hl, hc, hsz⟩
    · obtain ⟨d, x⟩ := c
      rw [List.concat_eq_append] at hc hsz
      simp only [Op.run, N_pop_back_run_snoc hL hl hc, Res.ok.injEq] at he
      obtain ⟨-, rfl⟩ := he
      have h := deleted_Inv (w := w.enter L) (L := L) xs [] hc hsz
      rw [List.append_nil] at h
      exact ⟨_, h⟩

theorem Inv_init {w : World} {L : Ptr} (h : w.lists L = some ⟨0, 0, 0⟩) : Inv w L [] :=
  ⟨_, h, ⟨rfl, rfl, trivial, List.nodup_nil⟩, rfl⟩

theorem reach_Inv {w : World} {L : Ptr} (h : Reachable L w) : ∃ cs, Inv w L cs := by
  induction h with
  | init w h0 => exact ⟨[], Inv_init h0⟩
  | step w w1 op r _ hv he ih =>
    obtain ⟨cs, hI⟩ := ih
    exact exec_Inv hI hv he

theorem Seg_symm {nodes : Ptr → Option N_node} {cs : List Cell} {prev : Ptr}
    (hs : Seg nodes prev cs 0)
    (hprev : prev ≠ 0 → ∃ np, nodes prev = some np ∧ np.next = hdA cs 0) :
    ∀ n ∈ addrs cs, ∃ nd, nodes n = some nd ∧
      (nd.next ≠ 0 → ∃ nn, nodes nd.next = some nn ∧ nn.previous = n) ∧
      (nd.previous ≠ 0 → ∃ np, nodes nd.previous = some np ∧ np.next = n) := by
  induction cs generalizing prev with
  | nil => intro n hn; simp [addrs] at hn
  | cons c rest ih =>
    obtain ⟨h0, h1, h2⟩ := hs
    intro n hn
    rw [addrs_cons, List.mem_cons] at hn
    rcases hn with rfl | hn
    · refine ⟨_, h1, ?_, ?_⟩
      · intro hne
        cases rest with
        | nil => exact absurd rfl hne
        | cons c1 r1 => exact ⟨_, h2.2.1, rfl⟩
      · exact hprev
    · exact ih h2 (fun _ => ⟨_, h1, rfl⟩) n hn

theorem Chain_ends {nodes : Ptr → Option N_node} {l : N} {cs : List Cell}
    (hc : Chain nodes l cs) (hne : cs ≠ []) :
    (∃ f, nodes l.front = some f ∧ f.previous = 0) ∧
      (∃ b, nodes l.back = some b ∧ b.next = 0) := by
  obtain ⟨hfr, hbk, hseg, _⟩ := hc
  constructor
  · cases cs with
    | nil => exact absurd rfl hne
    | cons c rest => exact ⟨_, by rw [hfr]; exact hseg.2.1, rfl⟩
  · rw [hbk]
    exact Seg_last_next hseg hne

theorem Inv_consistentMod {w : World} {L : Ptr} {cs : List Cell} (h : Inv w L cs) :
    ChainConsistentMod w L := by
  obtain ⟨l, hl, hc, hsz⟩ := h
  refine ⟨l, hl, addrs cs, ?_, ?_, ?_, ?_, ?_⟩
  · rw [hc.1]; exact NextChain_of_Seg hc.2.2.1
  · rw [hc.2.1]; exact PrevChain_of_Seg hc.2.2.1
  · simpa [addrs] using hsz
  · intro hne
    exact Chain_ends hc (fun e => hne (by rw [e]; rfl))
  · intro he
    have : cs = [] := by simpa [addrs] using he
    subst this
    exact ⟨hc.1, hc.2.1⟩

theorem Inv_symmetric {w : World} {L : Ptr} {cs : List Cell} (h : Inv w L cs) :
    LinkSymmetric w L := by
  obtain ⟨l, hl, hc, _⟩ := h
  refine ⟨l, addrs cs, hl, ?_, Seg_symm hc.2.2.1 (fun h => absurd rfl h)⟩
  rw [hc.1]; exact NextChain_of_Seg hc.2.2.1

theorem insNodes_apply_ne {nodes : Ptr → Option N_node} {m a x nx p : Ptr}
    (h1 : p ≠ m) (h2 : p ≠ a) (h3 : p ≠ nx) : insNodes nodes m a x nx p = nodes p := by
  unfold insNodes
  rw [setNext_apply_ne _ h2, setPrev_apply_ne _ h3, Function.update_noteq h1]

theorem length_descCells (n : Nat) : (descCells n).length = n := by
  induction n with
  | zero => rfl
  | succ n ih => simp [descCells, ih]

theorem hdA_descCells (n : Nat) : hdA (descCells n) 0 = n := by
  cases n <;> rfl

/-- The state after `n` pushes is reachable, holds the chain `n, .., 1`, and no address
above `n` is live. -/
theorem pushFronts_spec {L : Ptr} (hL : L ≠ 0) (n : Nat) :
    Reachable L (pushFronts L n) ∧ Inv (pushFronts L n) L (descCells n) ∧
      ∀ p, n < p → (pushFronts L n).nodes p = none := by
  induction n with
  | zero =>
    have h : (World.fresh L).lists L = some ⟨0, 0, 0⟩ := by simp [World.fresh]
    exact ⟨Reachable.init _ h, Inv_init h, fun _ _ => rfl⟩
  | succ n ih =>
    obtain ⟨hr, ⟨l, hl, hc, hsz⟩, hfree⟩ := ih
    have hm : n + 1 ≠ 0 := Nat.succ_ne_zero n
    have hf := hfree (n + 1) (Nat.lt_succ_self n)
    have hrun := N_push_front_run 0 hL hl hc hm hf
    have he : exec L (Op.push_front (n + 1) 0) (pushFronts L n) =
        Res.ok 0 (((pushFronts L n).enter L).inserted L l (n + 1) 0 0
          (hdA (descCells n) 0)) := by
      rw [exec_eq hL hl]
      simp only [Op.run, bind_apply, hrun, pure_apply]
    have hw : pushFronts L (n + 1) = ((pushFronts L n).enter L).inserted L l (n + 1) 0 0
        (hdA (descCells n) 0) := by
      show (exec L (Op.push_front (n + 1) 0) (pushFronts L n)).world = _
      rw [he]; rfl
    refine ⟨Reachable.step _ _ (Op.push_front (n + 1) 0) 0 hr ⟨hm, hf⟩ (by rw [hw]; exact he),
      ?_, ?_⟩
    · rw [hw]
      have hc1 : Chain ((pushFronts L n).enter L).nodes l ([] ++ descCells n) := hc
      exact inserted_Inv [] (descCells n) 0 hc1 hsz hm hf
    · intro p hp
      rw [hw]
      show insNodes (pushFronts L n).nodes (n + 1) 0 0 (hdA (descCells n) 0) p = none
      have h1 : p ≠ n + 1 := by omega
      have h2 : p ≠ 0 := by omega
      have h3 : p ≠ n := by omega
      rw [hdA_descCells, insNodes_apply_ne h1 h2 h3]
      exact hfree p (by omega)

/-- C1 (as amended): in every state reached from a freshly initialised list by list
operations whose node arguments are null or nodes of the list, the nodes met from
`front` by `next` are the nodes met from `back` by `previous` in reverse order, `size`
equals their number modulo `2 ^ 32`, a list with nodes has `front->previous` and
`back->next` null, and a list without nodes has `front` and `back` null. -/
theorem chain_consistency_invariant {L : Ptr} {w : World} (h : Reachable L w) :
    ChainConsistentMod w L := by
  obtain ⟨cs, hI⟩ := reach_Inv h
  exact Inv_consistentMod hI

/-- Witness for C1: the state after two pushes on a fresh list at address `1`. -/
theorem chain_consistency_invariant_witness :
    Reachable 1 (pushFronts 1 2) ∧ ChainConsistentMod (pushFronts 1 2) 1 :=
  ⟨(pushFronts_spec (by decide) 2).1,
    chain_consistency_invariant (pushFronts_spec (by decide) 2).1⟩

/-- C1 (as stated) fails: `2 ^ 32` calls of `push_front` on a fresh list reach a state
in which `size` has wrapped to `0` while `front` is not null, so `size` is not the
number of nodes. -/
theorem chain_consistency_counterexample :
    Reachable 1 (pushFronts 1 4294967296) ∧
      ¬ ChainConsistent (pushFronts 1 4294967296) 1 := by
  obtain ⟨hr, ⟨l, hl, hc, hsz⟩, _⟩ := pushFronts_spec (L := 1) (by decide) 4294967296
  refine ⟨hr, ?_⟩
  rintro ⟨l1, hl1, _, _, _, hz⟩
  rw [hl] at hl1
  cases hl1
  rw [length_descCells] at hsz
  have h0 : l.size = 0 := by rw [hsz]; rfl
  have hf := (hz h0).1
  rw [hc.1, hdA_descCells] at hf
  exact absurd hf (by decide)

/-- C2: in every state reached from a freshly initialised list by list operations whose
node arguments are null or nodes of the list, every node `n` of the chain with
`n->next` not null has `n->next->previous == n`, and every node `n` with `n->previous`
not null has `n->previous->next == n`. -/
theorem link_symmetry_invariant {L : Ptr} {w : World} (h : Reachable L w) :
    LinkSymmetric w L := by
  obtain ⟨cs, hI⟩ := reach_Inv h
  exact Inv_symmetric hI

/-- Witness for C2: the state after three pushes on a fresh list at address `1`. -/
theorem link_symmetry_invariant_witness :
    Reachable 1 (pushFronts 1 3) ∧ LinkSymmetric (pushFronts 1 3) 1 :=
  ⟨(pushFronts_spec (by decide) 3).1,
    link_symmetry_invariant (pushFronts_spec (by decide) 3).1⟩

/-- A chain that ends in null visits no node twice. -/
theorem Seg_nodup {nodes : Ptr → Option N_node} {cs : List Cell} {prev : Ptr}
    (hs : Seg nodes prev cs 0) : (addrs cs).Nodup := by
  induction cs generalizing prev with
  | nil => exact List.nodup_nil
  | cons c rest ih =>
    obtain ⟨h0, h1, h2⟩ := hs
    have hnd := ih h2
    rw [addrs_cons, List.nodup_cons]
    refine ⟨?_, hnd⟩
    intro hmem
    obtain ⟨xs, y, ys, hsplit⟩ := mem_addrs_split hmem
    have hne : rest ≠ [] := by
      intro e; rw [e] at hmem; simp [addrs] at hmem
    rw [hsplit] at h2 hnd
    obtain ⟨hsx, _, hmid, hsy⟩ := (Seg_append xs ((c.1, y) :: ys) c.1 0).1 h2
    rw [h1] at hmid
    have hnext : hdA rest 0 = hdA ys 0 := by
      have := congrArg (fun o => o.map N_node.next) hmid
      simpa using this
    have hhd : hdA rest 0 ∈ addrs (xs ++ [(c.1, y)]) := by
      rw [hsplit, hdA_append]
      cases xs with
      | nil => simp [hdA, addrs]
      | cons x0 xs0 => simp [hdA, addrs]
    have hnz : hdA rest 0 ≠ 0 := (Seg_live (hsplit ▸ h2) (hdA_mem hne 0)).1
    have hys : ys ≠ [] := by
      intro e; rw [e] at hnext; exact hnz hnext
    have hin : hdA rest 0 ∈ addrs ys := by rw [hnext]; exact hdA_mem hys 0
    have hnd2 : (addrs (xs ++ [(c.1, y)]) ++ addrs ys).Nodup := by
      rw [← addrs_append]; simpa using hnd
    exact (List.nodup_append.1 hnd2).2.2 hhd hin

/-- The chain of a record is given by its ends and its links alone. -/
theorem Chain_of_Seg {nodes : Ptr → Option N_node} {l : N} {cs : List Cell}
    (hf : l.front = hdA cs 0) (hb : l.back = lastA cs 0) (hs : Seg nodes 0 cs 0) :
    Chain nodes l cs :=
  ⟨hf, hb, hs, Seg_nodup hs⟩

theorem exec_push_back {w : World} {L : Ptr} {l : N} {cs : List Cell} {m : Ptr} (x : Ptr)
    (hL : L ≠ 0) (hl : w.lists L = some l) (hc : Chain w.nodes l cs)
    (hm : m ≠ 0) (hf : w.nodes m = none) :
    exec L (Op.push_back m x) w =
      Res.ok 0 ((w.enter L).inserted L l m (lastA cs 0) x 0) := by
  rw [exec_eq hL hl]
  simp only [Op.run, bind_apply, N_push_back_run x hL hl hc hm hf, pure_apply]

theorem exec_push_front {w : World} {L : Ptr} {l : N} {cs : List Cell} {m : Ptr} (x : Ptr)
    (hL : L ≠ 0) (hl : w.lists L = some l) (hc : Chain w.nodes l cs)
    (hm : m ≠ 0) (hf : w.nodes m = none) :
    exec L (Op.push_front m x) w =
      Res.ok 0 ((w.enter L).inserted L l m 0 x (hdA cs 0)) := by
  rw [exec_eq hL hl]
  simp only [Op.run, bind_apply, N_push_front_run x hL hl hc hm hf, pure_apply]

theorem Inv_push_back {w : World} {L : Ptr} {l : N} {cs : List Cell} {m : Ptr} (x : Ptr)
    (hc : Chain w.nodes l cs) (hsz : l.size = cs.length % UINT_RANGE)
    (hm : m ≠ 0) (hf : w.nodes m = none) :
    Inv ((w.enter L).inserted L l m (lastA cs 0) x 0) L (cs ++ [(m, x)]) := by
  have hc1 : Chain (w.enter L).nodes l (cs ++ []) := by rw [List.append_nil]; exact hc
  have hsz1 : l.size = (cs ++ []).length % UINT_RANGE := by rw [List.append_nil]; exact hsz
  exact inserted_Inv (w := w.enter L) cs [] x hc1 hsz1 hm hf

/-- Pushing items at the back appends their cells to the chain. -/
theorem pushBackAll_spec {L : Ptr} (hL : L ≠ 0) (ms xs : List Ptr) :
    ∀ (w : World) (cs : List Cell), Inv w L cs → ms.length = xs.length → ms.Nodup →
      (∀ m ∈ ms, m ≠ 0 ∧ w.nodes m = none) →
      ∃ w1, pushBackAll L ms xs w = Res.ok () w1 ∧ Inv w1 L (cs ++ ms.zip xs) := by
  induction ms generalizing xs with
  | nil =>
    intro w cs hI _ _ _
    exact ⟨w, rfl, by simpa using hI⟩
  | cons m ms ih =>
    intro w cs hI hlen hnd hfr
    cases xs with
    | nil => simp at hlen
    | cons x xs =>
      obtain ⟨l, hl, hc, hsz⟩ := hI
      obtain ⟨hm, hf⟩ := hfr m (List.mem_cons_self _ _)
      have he := exec_push_back x hL hl hc hm hf
      have hI1 := Inv_push_back (L := L) x hc hsz hm hf
      have hfr1 : ∀ p ∈ ms, p ≠ 0 ∧
          ((w.enter L).inserted L l m (lastA cs 0) x 0).nodes p = none := by
        intro p hp
        obtain ⟨hp0, hpf⟩ := hfr p (List.mem_cons_of_mem _ hp)
        refine ⟨hp0, ?_⟩
        have h1 : p ≠ m := fun e => (List.nodup_cons.1 hnd).1 (e ▸ hp)
        have h2 : p ≠ lastA cs 0 := by
          intro e
          rcases lastA_cases cs with ⟨_, h⟩ | ⟨_, h⟩
          · exact hp0 (e.trans h)
          · obtain ⟨_, nd, hnd1⟩ := Seg_live hc.2.2.1 h
            rw [← e, hpf] at hnd1
            exact Option.noConfusion hnd1
        show insNodes w.nodes m (lastA cs 0) x 0 p = none
        rw [insNodes_apply_ne h1 h2 hp0]
        exact hpf
      obtain ⟨w1, hrun, hI2⟩ := ih xs _ _ hI1 (Nat.succ.inj hlen) (List.nodup_cons.1 hnd).2 hfr1
      refine ⟨w1, ?_, by simpa using hI2⟩
      show (exec L (Op.push_back m x) >>= fun _ => pushBackAll L ms xs) w = _
      rw [bind_apply, he]
      exact hrun

theorem exec_pop_front_cons {w : World} {L : Ptr} {l : N} {ys : List Cell} {d x : Ptr}
    (hL : L ≠ 0) (hl : w.lists L = some l) (hc : Chain w.nodes l ((d, x) :: ys)) :
    exec L Op.pop_front w = Res.ok x ((w.enter L).deleted L l d 0 (hdA ys 0)) := by
  rw [exec_eq hL hl]
  exact N_pop_front_run_cons hL hl hc

theorem exec_pop_back_snoc {w : World} {L : Ptr} {l : N} {xs : List Cell} {d x : Ptr}
    (hL : L ≠ 0) (hl : w.lists L = some l) (hc : Chain w.nodes l (xs ++ [(d, x)])) :
    exec L Op.pop_back w = Res.ok x ((w.enter L).deleted L l d (lastA xs 0) 0) := by
  rw [exec_eq hL hl]
  exact N_pop_back_run_snoc hL hl hc

/-- Popping at the front as many times as there are cells returns the items front to
back and empties the chain. -/
theorem popFrontN_spec {L : Ptr} (hL : L ≠ 0) (cs : List Cell) :
    ∀ w : World, Inv w L cs →
      ∃ w1, popFrontN L cs.length w = Res.ok (items cs) w1 ∧ Inv w1 L [] := by
  induction cs with
  | nil => intro w hI; exact ⟨w, rfl, hI⟩
  | cons c ys ih =>
    intro w hI
    obtain ⟨d, x⟩ := c
    obtain ⟨l, hl, hc, hsz⟩ := hI
    have he := exec_pop_front_cons hL hl hc
    have hc1 : Chain (w.enter L).nodes l ([] ++ (d, x) :: ys) := hc
    have hI1 := deleted_Inv (w := w.enter L) (L := L) [] ys hc1 hsz
    obtain ⟨w1, hrun, hI2⟩ := ih _ hI1
    refine ⟨w1, ?_, hI2⟩
    show (exec L Op.pop_front >>= fun r => popFrontN L ys.length >>= fun rs =>
      pure (r :: rs)) w = _
    rw [bind_apply, he]
    simp only [lastA] at hrun
    simp only [bind_apply, hrun, pure_apply, List.nil_append]
    rfl

/-- Popping at the back as many times as there are cells returns the items back to
front and empties the chain. -/
theorem popBackN_spec {L : Ptr} (hL : L ≠ 0) (cs : List Cell) :
    ∀ w : World, Inv w L cs →
      ∃ w1, popBackN L cs.length w = Res.ok (items cs).reverse w1 ∧ Inv w1 L [] := by
  induction cs using List.reverseRecOn with
  | nil => intro w hI; exact ⟨w, rfl, hI⟩
  | append_singleton xs c ih =>
    intro w hI
    obtain ⟨d, x⟩ := c
    obtain ⟨l, hl, hc, hsz⟩ := hI
    have he := exec_pop_back_snoc hL hl hc
    have hI1 := deleted_Inv (w := w.enter L) (L := L) xs [] hc hsz
    rw [List.append_nil] at hI1
    obtain ⟨w1, hrun, hI2⟩ := ih _ hI1
    refine ⟨w1, ?_, hI2⟩
    have hlen : (xs ++ [(d, x)]).length = xs.length + 1 := by simp
    have hit : (items (xs ++ [(d, x)])).reverse = x :: (items xs).reverse := by
      simp [items]
    rw [hlen, hit]
    show (exec L Op.pop_back >>= fun r => popBackN L xs.length >>= fun rs =>
      pure (r :: rs)) w = _
    rw [bind_apply, he]
    simp only [hdA] at hrun
    simp only [bind_apply, hrun, pure_apply]

theorem Inv_nil_record {w : World} {L : Ptr} (h : Inv w L []) :
    w.lists L = some ⟨0, 0, 0⟩ := by
  obtain ⟨l, hl, hc, hsz⟩ := h
  obtain ⟨f, b, s⟩ := l
  have h1 : f = 0 := hc.1
  have h2 : b = 0 := hc.2.1
  have h3 : s = 0 := hsz
  rw [hl, h1, h2, h3]

theorem zip_items {ms xs : List Ptr} (h : ms.length = xs.length) :
    items (ms.zip xs) = xs := by
  unfold items
  exact List.map_snd_zip _ _ (Nat.le_of_eq h.symm)

theorem zip_length {ms xs : List Ptr} (h : ms.length = xs.length) :
    (ms.zip xs).length = xs.length := by
  simp [List.length_zip, h]

/-- C3: for every item sequence `xs`, pushed at the back of a freshly initialised list
at `L` (the calls of `malloc` returning the distinct, non-null, not live addresses
`ms`), `xs.length` calls of `pop_front` return exactly `xs`, in that order, and leave
the list with `size` zero and `front`, `back` null. -/
theorem fifo_round_trip (w : World) (L : Ptr) (ms xs : List Ptr)
    (hL : L ≠ 0) (hinit : w.lists L = some ⟨0, 0, 0⟩) (hlen : ms.length = xs.length)
    (hnd : ms.Nodup) (hfresh : ∀ m ∈ ms, m ≠ 0 ∧ w.nodes m = none) :
    ∃ w1, (pushBackAll L ms xs >>= fun _ => popFrontN L xs.length) w = Res.ok xs w1 ∧
      w1.lists L = some ⟨0, 0, 0⟩ := by
  obtain ⟨w1, h1, hI1⟩ := pushBackAll_spec hL ms xs w [] (Inv_init hinit) hlen hnd hfresh
  rw [List.nil_append] at hI1
  obtain ⟨w2, h2, hI2⟩ := popFrontN_spec hL _ w1 hI1
  rw [zip_items hlen, zip_length hlen] at h2
  refine ⟨w2, ?_, Inv_nil_record hI2⟩
  rw [bind_apply, h1]
  exact h2

/-- Witness for C3: items `11, 22, 33` through a fresh list at address `1`. -/
theorem fifo_round_trip_witness :
    ∃ w1, (pushBackAll 1 [5, 6, 7] [11, 22, 33] >>= fun _ =>
        popFrontN 1 ([11, 22, 33] : List Ptr).length) (World.fresh 1) = Res.ok [11, 22, 33] w1 ∧
      w1.lists 1 = some ⟨0, 0, 0⟩ :=
  fifo_round_trip (World.fresh 1) 1 [5, 6, 7] [11, 22, 33] (by decide) (by decide)
    (by decide) (by decide) (by decide)

/-- C4: for every item sequence `xs`, pushed at the back of a freshly initialised list
at `L` (the calls of `malloc` returning the distinct, non-null, not live addresses
`ms`), `xs.length` calls of `pop_back` return `xs` in reverse order and leave the list
with `size` zero and `front`, `back` null. -/
theorem lifo_round_trip (w : World) (L : Ptr) (ms xs : List Ptr)
    (hL : L ≠ 0) (hinit : w.lists L = some ⟨0, 0, 0⟩) (hlen : ms.length = xs.length)
    (hnd : ms.Nodup) (hfresh : ∀ m ∈ ms, m ≠ 0 ∧ w.nodes m = none) :
    ∃ w1, (pushBackAll L ms xs >>= fun _ => popBackN L xs.length) w =
        Res.ok xs.reverse w1 ∧ w1.lists L = some ⟨0, 0, 0⟩ := by
  obtain ⟨w1, h1, hI1⟩ := pushBackAll_spec hL ms xs w [] (Inv_init hinit) hlen hnd hfresh
  rw [List.nil_append] at hI1
  obtain ⟨w2, h2, hI2⟩ := popBackN_spec hL _ w1 hI1
  rw [zip_items hlen, zip_length hlen] at h2
  refine ⟨w2, ?_, Inv_nil_record hI2⟩
  rw [bind_apply, h1]
  exact h2

/-- Witness for C4: items `11, 22, 33` through a fresh list at address `1`. -/
theorem lifo_round_trip_witness :
    ∃ w1, (pushBackAll 1 [5, 6, 7] [11, 22, 33] >>= fun _ =>
        popBackN 1 ([11, 22, 33] : List Ptr).length) (World.fresh 1) = Res.ok ([11, 22, 33] : List Ptr).reverse w1 ∧
      w1.lists 1 = some ⟨0, 0, 0⟩ :=
  lifo_round_trip (World.fresh 1) 1 [5, 6, 7] [11, 22, 33] (by decide) (by decide)
    (by decide) (by decide) (by decide)

theorem WF_of_Inv {w : World} {L : Ptr} {cs : List Cell} (h : Inv w L cs)
    (hlen : cs.length < UINT_RANGE) : WF w L cs := by
  obtain ⟨l, hl, hc, hsz⟩ := h
  have : l.size = cs.length := by rw [hsz]; exact Nat.mod_eq_of_lt hlen
  exact ⟨l, hl, hc, this, this ▸ hlen⟩

theorem Inv_of_WF {w : World} {L : Ptr} {cs : List Cell} (h : WF w L cs) : Inv w L cs := by
  obtain ⟨l, hl, hc, hsz, hlt⟩ := h
  exact ⟨l, hl, hc, by rw [← hsz]; exact (Nat.mod_eq_of_lt hlt).symm⟩

theorem WF_size {w : World} {L : Ptr} {cs : List Cell} (h : WF w L cs) :
    N_size w L = cs.length := by
  obtain ⟨l, hl, _, hsz, _⟩ := h
  simp [N_size, hl, hsz]

theorem WF_length_lt {w : World} {L : Ptr} {cs : List Cell} (h : WF w L cs) :
    cs.length < UINT_RANGE := by
  obtain ⟨l, _, _, hsz, hlt⟩ := h
  rw [← hsz]; exact hlt

/-- A well-formed list satisfies the chain consistency and the link symmetry that the
specification asks of a list. -/
theorem WF_consistent {w : World} {L : Ptr} {cs : List Cell} (h : WF w L cs) :
    ChainConsistent w L ∧ LinkSymmetric w L := by
  refine ⟨?_, Inv_symmetric (Inv_of_WF h)⟩
  obtain ⟨l, hl, hc, hsz, _⟩ := h
  have hlen : (addrs cs).length = l.size := by simp [addrs, hsz]
  refine ⟨l, hl, ⟨addrs cs, ?_, hlen⟩, ⟨(addrs cs).reverse, ?_, ?_⟩, ?_, ?_⟩
  · rw [hc.1]; exact NextChain_of_Seg hc.2.2.1
  · rw [hc.2.1]; exact PrevChain_of_Seg hc.2.2.1
  · simp [hlen]
  · intro hpos
    apply Chain_ends hc
    intro e
    rw [e] at hsz
    simp [hsz] at hpos
  · intro h0
    have : cs = [] := List.length_eq_zero.1 (by rw [← hsz, h0])
    subst this
    exact ⟨hc.1, hc.2.1⟩

theorem exec_insert {w : World} {L : Ptr} {l : N} (xs ys : List Cell) {m : Ptr} (x : Ptr)
    (hL : L ≠ 0) (hl : w.lists L = some l) (hc : Chain w.nodes l (xs ++ ys))
    (hm : m ≠ 0) (hf : w.nodes m = none) :
    exec L (Op.insert m (lastA xs 0) x) w =
      Res.ok 0 (w.inserted L l m (lastA xs 0) x (hdA ys 0)) := by
  rw [exec_eq hL hl]
  simp only [Op.run, bind_apply, insert_run x hL hl hc hm hf, pure_apply]

theorem exec_delete_node {w : World} {L : Ptr} {l : N} (xs ys : List Cell) {d x : Ptr}
    (hL : L ≠ 0) (hl : w.lists L = some l) (hc : Chain w.nodes l (xs ++ (d, x) :: ys)) :
    exec L (Op.delete_node d) w = Res.ok x (w.deleted L l d (lastA xs 0) (hdA ys 0)) := by
  rw [exec_eq hL hl]
  exact delete_run hL hl hc

theorem exec_get {w : World} {L : Ptr} {l : N} {cs : List Cell}
    (hL : L ≠ 0) (hl : w.lists L = some l) (hc : Chain w.nodes l cs)
    (hsz : l.size ≤ cs.length) (i : Nat) :
    exec L (Op.get i) w =
      Res.ok (if i < l.size then (items cs).getD i 0 else 0) ((w.enter L).enter L) := by
  rw [exec_eq hL hl]
  exact N_get_run hL hl hc hsz i

theorem lastA_take {cs : List Cell} {k : Nat} {a : Ptr} (h : (addrs cs)[k]? = some a)
    (d : Ptr) : lastA (cs.take (k + 1)) d = a := by
  induction cs generalizing k d with
  | nil => simp [addrs] at h
  | cons c rest ih =>
    cases k with
    | zero =>
      simp only [addrs, List.map_cons, List.getElem?_cons_zero, Option.some.injEq] at h
      simpa [lastA] using h
    | succ k =>
      simp only [addrs, List.map_cons, List.getElem?_cons_succ] at h
      exact ih h c.1

theorem items_splice (cs : List Cell) (k m x : Nat) :
    items (cs.take (k + 1) ++ (m, x) :: cs.drop (k + 1)) =
      (items cs).take (k + 1) ++ [x] ++ (items cs).drop (k + 1) := by
  simp [items, List.map_take, List.map_drop]

theorem getElem?_split {cs : List Cell} {k : Nat} {c : Cell} (h : cs[k]? = some c) :
    cs = cs.take k ++ c :: cs.drop (k + 1) := by
  induction cs generalizing k with
  | nil => simp at h
  | cons c0 rest ih =>
    cases k with
    | zero =>
      simp only [List.getElem?_cons_zero, Option.some.injEq] at h
      simp [h]
    | succ k =>
      simp only [List.getElem?_cons_succ] at h
      have := ih h
      simp only [List.take_succ_cons, List.drop_succ_cons, List.cons_append, List.cons.injEq,
        true_and]
      exact this

theorem eraseIdx_split (cs : List Cell) (k : Nat) :
    cs.eraseIdx k = cs.take k ++ cs.drop (k + 1) :=
  List.eraseIdx_eq_take_drop_succ cs k

theorem items_eraseIdx (cs : List Cell) (k : Nat) :
    items (cs.eraseIdx k) = (items cs).eraseIdx k := by
  induction cs generalizing k with
  | nil => rfl
  | cons c rest ih =>
    cases k with
    | zero => rfl
    | succ k => simp only [items, List.eraseIdx_cons_succ, List.map_cons] at ih ⊢; rw [ih]

theorem followNext_of_Seg {nodes : Ptr → Option N_node} {cs : List Cell} {prev nxt : Ptr}
    (hs : Seg nodes prev cs nxt) {i : Nat} {r : Ptr} (hr : (addrs cs)[i]? = some r) :
    followNext nodes i (hdA cs nxt) = some r := by
  induction cs generalizing prev i with
  | nil => simp [addrs] at hr
  | cons c cs ih =>
    obtain ⟨h0, h1, h2⟩ := hs
    cases i with
    | zero =>
      simp only [addrs, List.map_cons, List.getElem?_cons_zero, Option.some.injEq] at hr
      subst hr
      rfl
    | succ i =>
      simp only [addrs, List.map_cons, List.getElem?_cons_succ] at hr
      have := ih h2 hr
      show followNext nodes (i + 1) c.1 = some r
      simp [followNext, h0, h1, this]

/-- C5 (as amended): on a well-formed list with cells `cs` that holds fewer than
`2 ^ 32 - 1` nodes, `insert( NULL, x )` makes the item sequence `x :: s` (and `get( 0 )`
then returns `x`), and `insert( a, x )` with `a` the node at position `k` makes it
`s[0..k] ++ [x] ++ s[k+1..]`; in both cases `size` grows by exactly one and the list
stays well-formed. -/
theorem insert_splices (w : World) (L : Ptr) (cs : List Cell) (m x : Ptr)
    (hL : L ≠ 0) (hw : WF w L cs) (hroom : cs.length + 1 < UINT_RANGE)
    (hm : m ≠ 0) (hf : w.nodes m = none) :
    (∃ w1 cs1, exec L (Op.insert m 0 x) w = Res.ok 0 w1 ∧ WF w1 L cs1 ∧
        items cs1 = x :: items cs ∧ N_size w1 L = N_size w L + 1 ∧
        ∃ w2, exec L (Op.get 0) w1 = Res.ok x w2) ∧
      ∀ k a, (addrs cs)[k]? = some a →
        ∃ w1 cs1, exec L (Op.insert m a x) w = Res.ok 0 w1 ∧ WF w1 L cs1 ∧
          items cs1 = (items cs).take (k + 1) ++ [x] ++ (items cs).drop (k + 1) ∧
          N_size w1 L = N_size w L + 1 := by
  have hsize := WF_size hw
  obtain ⟨l, hl, hc, hsz⟩ := Inv_of_WF hw
  constructor
  · have hc1 : Chain w.nodes l ([] ++ cs) := hc
    have he := exec_insert [] cs x hL hl hc1 hm hf
    have hI := inserted_Inv (L := L) [] cs x hc1 hsz hm hf
    have hw1 := WF_of_Inv hI (by simpa using hroom)
    simp only [lastA] at he hI hw1
    refine ⟨_, _, he, hw1, rfl, ?_, ?_⟩
    · rw [WF_size hw1, hsize]; simp
    · obtain ⟨l1, hl1, hch1, hs1, _⟩ := hw1
      have hg := exec_get hL hl1 hch1 (Nat.le_of_eq hs1) 0
      have hpos : 0 < l1.size := by rw [hs1]; simp
      simp only [hpos, if_true] at hg
      exact ⟨_, hg⟩
  · intro k a hk
    have hcs : cs = cs.take (k + 1) ++ cs.drop (k + 1) := (List.take_append_drop _ _).symm
    have hc1 : Chain w.nodes l (cs.take (k + 1) ++ cs.drop (k + 1)) := by rw [← hcs]; exact hc
    have hsz1 : l.size = (cs.take (k + 1) ++ cs.drop (k + 1)).length % UINT_RANGE := by
      rw [← hcs]; exact hsz
    have he := exec_insert _ _ x hL hl hc1 hm hf
    have hI := inserted_Inv (L := L) _ _ x hc1 hsz1 hm hf
    rw [lastA_take hk] at he hI
    have hlen : (cs.take (k + 1) ++ (m, x) :: cs.drop (k + 1)).length = cs.length + 1 := by
      have := congrArg List.length hcs
      simp only [List.length_append, List.length_cons] at this ⊢
      omega
    have hw1 := WF_of_Inv hI (by rw [hlen]; exact hroom)
    refine ⟨_, _, he, hw1, items_splice cs k m x, ?_⟩
    rw [WF_size hw1, hsize, hlen]

/-- Witness for C5: inserting into the list built by two pushes at address `1`. -/
theorem insert_splices_witness :
    (∃ w1 cs1, exec 1 (Op.insert 9 0 5) (pushFronts 1 2) = Res.ok 0 w1 ∧ WF w1 1 cs1 ∧
        items cs1 = 5 :: items (descCells 2) ∧
        N_size w1 1 = N_size (pushFronts 1 2) 1 + 1 ∧
        ∃ w2, exec 1 (Op.get 0) w1 = Res.ok 5 w2) ∧
      ∀ k a, (addrs (descCells 2))[k]? = some a →
        ∃ w1 cs1, exec 1 (Op.insert 9 a 5) (pushFronts 1 2) = Res.ok 0 w1 ∧ WF w1 1 cs1 ∧
          items cs1 = (items (descCells 2)).take (k + 1) ++ [5] ++
            (items (descCells 2)).drop (k + 1) ∧
          N_size w1 1 = N_size (pushFronts 1 2) 1 + 1 :=
  insert_splices (pushFronts 1 2) 1 (descCells 2) 9 5 (by decide)
    (WF_of_Inv (pushFronts_spec (by decide) 2).2.1 (by decide)) (by decide) (by decide)
    ((pushFronts_spec (by decide) 2).2.2 9 (by decide))

/-- C5 (as stated) fails: the list built by `2 ^ 32 - 1` pushes is well-formed with
`size = 2 ^ 32 - 1`, and `insert( NULL, x )` on it returns with `size = 0`, not
`size + 1`. -/
theorem insert_splices_counterexample :
    WF (pushFronts 1 4294967295) 1 (descCells 4294967295) ∧
      N_size (pushFronts 1 4294967295) 1 = 4294967295 ∧
      ∃ w1, exec 1 (Op.insert 4294967296 0 7) (pushFronts 1 4294967295) = Res.ok 0 w1 ∧
        N_size w1 1 = 0 := by
  obtain ⟨_, hI, hfree⟩ := pushFronts_spec (L := 1) (by decide) 4294967295
  have hw := WF_of_Inv hI (by rw [length_descCells]; decide)
  refine ⟨hw, by rw [WF_size hw, length_descCells], ?_⟩
  obtain ⟨l, hl, hc, hsz⟩ := hI
  have hc1 : Chain (pushFronts 1 4294967295).nodes l ([] ++ descCells 4294967295) := hc
  have he := exec_insert [] _ 7 (by decide) hl hc1 (by decide)
    (hfree 4294967296 (by decide))
  simp only [lastA] at he
  refine ⟨_, he, ?_⟩
  rw [length_descCells] at hsz
  simp [N_size, World.inserted, hsz, UINT_RANGE]

/-- C6: on a well-formed list with cells `cs`, `delete_node( d )` for the node `d` at
position `k`, holding item `x`, returns `x`; the list stays well-formed with the cell
at position `k` erased and every other cell kept in order, `front` and `back` are the
ends of the remaining chain, `size` drops by exactly one, and the node is freed. -/
theorem delete_node_unlinks (w : World) (L : Ptr) (cs : List Cell) (k : Nat) (d x : Ptr)
    (hL : L ≠ 0) (hw : WF w L cs) (hk : cs[k]? = some (d, x)) :
    ∃ w1, exec L (Op.delete_node d) w = Res.ok x w1 ∧ WF w1 L (cs.eraseIdx k) ∧
      items (cs.eraseIdx k) = (items cs).eraseIdx k ∧ (items cs)[k]? = some x ∧
      N_size w1 L + 1 = N_size w L ∧ N_front w1 L = hdA (cs.eraseIdx k) 0 ∧
      N_back w1 L = lastA (cs.eraseIdx k) 0 ∧ w1.nodes d = none := by
  have hsize := WF_size hw
  have hlt := WF_length_lt hw
  obtain ⟨l, hl, hc, hsz⟩ := Inv_of_WF hw
  have hcs := getElem?_split hk
  have hc1 : Chain w.nodes l (cs.take k ++ (d, x) :: cs.drop (k + 1)) := by
    rw [← hcs]; exact hc
  have hsz1 : l.size = (cs.take k ++ (d, x) :: cs.drop (k + 1)).length % UINT_RANGE := by
    rw [← hcs]; exact hsz
  have he := exec_delete_node _ _ hL hl hc1
  have hI := deleted_Inv (w := w) (L := L) _ _ hc1 hsz1
  rw [← eraseIdx_split] at hI
  have hlen : (cs.eraseIdx k).length + 1 = cs.length := by
    have := congrArg List.length hcs
    rw [eraseIdx_split]
    simp only [List.length_append, List.length_cons] at this ⊢
    omega
  have hw1 := WF_of_Inv hI (by omega)
  refine ⟨_, he, hw1, items_eraseIdx cs k, ?_, ?_, ?_, ?_, ?_⟩
  · simp [items, hk]
  · rw [WF_size hw1, hsize, hlen]
  · obtain ⟨l1, hl1, hch1, _⟩ := hw1
    simp only [N_front, hl1]
    exact hch1.1
  · obtain ⟨l1, hl1, hch1, _⟩ := hw1
    simp only [N_back, hl1]
    exact hch1.2.1
  · simp [World.deleted, delNodes]

/-- Witness for C6: deleting the middle node of the list built by three pushes. -/
theorem delete_node_unlinks_witness :
    ∃ w1, exec 1 (Op.delete_node 2) (pushFronts 1 3) = Res.ok 0 w1 ∧
      WF w1 1 ((descCells 3).eraseIdx 1) ∧
      items ((descCells 3).eraseIdx 1) = (items (descCells 3)).eraseIdx 1 ∧
      (items (descCells 3))[1]? = some 0 ∧
      N_size w1 1 + 1 = N_size (pushFronts 1 3) 1 ∧
      N_front w1 1 = hdA ((descCells 3).eraseIdx 1) 0 ∧
      N_back w1 1 = lastA ((descCells 3).eraseIdx 1) 0 ∧ w1.nodes 2 = none :=
  delete_node_unlinks (pushFronts 1 3) 1 (descCells 3) 1 2 0 (by decide)
    (WF_of_Inv (pushFronts_spec (by decide) 3).2.1 (by decide)) (by decide)

/-- C10: on a well-formed list with cells `cs`, `get_node( index )` returns and leaves
memory as it was; the result is null when `index >= size`, and when `index < size` it
is the non-null node at position `index`, which is the node reached from `front` by
following `next` exactly `index` times without meeting a null link. -/
theorem get_node_positional (w : World) (L : Ptr) (cs : List Cell) (index : Nat)
    (hL : L ≠ 0) (hw : WF w L cs) :
    ∃ r, exec L (Op.get_node index) w = Res.ok r (w.enter L) ∧
      (N_size w L ≤ index → r = 0) ∧
      (index < N_size w L →
        r ≠ 0 ∧ (addrs cs)[index]? = some r ∧
          followNext w.nodes index (N_front w L) = some r) := by
  obtain ⟨l, hl, hc, hsz, _⟩ := hw
  have hle : l.size ≤ cs.length := Nat.le_of_eq hsz
  have he : exec L (Op.get_node index) w =
      Res.ok (if index < l.size then (addrs cs).getD index 0 else 0) (w.enter L) := by
    rw [exec_eq hL hl]
    exact N_get_node_eff hL hl hc hle index
  refine ⟨_, he, ?_, ?_⟩
  · intro h
    simp only [N_size, hl] at h
    simp [Nat.not_lt.2 h]
  · intro h
    simp only [N_size, hl] at h
    simp only [h, if_true, N_front, hl]
    have hlt : index < (addrs cs).length := by simp [addrs]; omega
    have hr : (addrs cs)[index]? = some ((addrs cs).getD index 0) := by
      rw [List.getD_eq_getElem?_getD, List.getElem?_eq_getElem hlt]; rfl
    refine ⟨(Seg_getD hc.2.2.1 (by omega)).1, hr, ?_⟩
    rw [hc.1]
    exact followNext_of_Seg hc.2.2.1 hr

/-- Witness for C10: looking up position `1` in the list built by three pushes. -/
theorem get_node_positional_witness :
    ∃ r, exec 1 (Op.get_node 1) (pushFronts 1 3) = Res.ok r ((pushFronts 1 3).enter 1) ∧
      (N_size (pushFronts 1 3) 1 ≤ 1 → r = 0) ∧
      (1 < N_size (pushFronts 1 3) 1 →
        r ≠ 0 ∧ (addrs (descCells 3))[1]? = some r ∧
          followNext (pushFronts 1 3).nodes 1 (N_front (pushFronts 1 3) 1) = some r) :=
  get_node_positional (pushFronts 1 3) 1 (descCells 3) 1 (by decide)
    (WF_of_Inv (pushFronts_spec (by decide) 3).2.1 (by decide))

/-- C7: `FUNC_THIS` fails with `ProtocolViolation` exactly when `S##_C_safety` is zero or
`S##_this` is null, and otherwise binds `this` to `S##_this` and resets `S##_C_safety`;
so it fails in the initial guard state, and after one dispatch of a non-null record `p`
the first `FUNC_THIS` binds `p` while a second one, with no dispatch between, fails. -/
theorem bindSelf_protocol (g : Guard) (p : Ptr) (hp : p ≠ 0) :
    (FUNC_THIS g = Except.error Err.ProtocolViolation ↔
        (g.S_C_safety = 0 ∨ g.S_this = 0)) ∧
      (¬ (g.S_C_safety = 0 ∨ g.S_this = 0) →
        FUNC_THIS g = Except.ok (g.S_this, { S_this := g.S_this, S_C_safety := 0 })) ∧
      FUNC_THIS Guard.initial = Except.error Err.ProtocolViolation ∧
      FUNC_THIS (S_call g p).2 = Except.ok (p, { S_this := p, S_C_safety := 0 }) ∧
      FUNC_THIS { S_this := p, S_C_safety := 0 } = Except.error Err.ProtocolViolation := by
  refine ⟨?_, ?_, rfl, ?_, ?_⟩
  · unfold FUNC_THIS
    constructor
    · intro h
      by_contra hc
      rw [if_neg hc] at h
      exact Except.noConfusion h
    · intro h
      rw [if_pos h]
  · intro h
    unfold FUNC_THIS
    rw [if_neg h]
  · simp [FUNC_THIS, S_call, hp]
  · simp [FUNC_THIS]

/-- Witness for C7: a guard armed for record `7`, and a dispatch of record `9`. -/
theorem bindSelf_protocol_witness :
    (FUNC_THIS ⟨7, 1⟩ = Except.error Err.ProtocolViolation ↔
        ((⟨7, 1⟩ : Guard).S_C_safety = 0 ∨ (⟨7, 1⟩ : Guard).S_this = 0)) ∧
      (¬ ((⟨7, 1⟩ : Guard).S_C_safety = 0 ∨ (⟨7, 1⟩ : Guard).S_this = 0) →
        FUNC_THIS ⟨7, 1⟩ =
          Except.ok ((⟨7, 1⟩ : Guard).S_this,
            { S_this := (⟨7, 1⟩ : Guard).S_this, S_C_safety := 0 })) ∧
      FUNC_THIS Guard.initial = Except.error Err.ProtocolViolation ∧
      FUNC_THIS (S_call ⟨7, 1⟩ 9).2 = Except.ok (9, { S_this := 9, S_C_safety := 0 }) ∧
      FUNC_THIS { S_this := 9, S_C_safety := 0 } = Except.error Err.ProtocolViolation :=
  bindSelf_protocol ⟨7, 1⟩ 9 (by decide)

/-- C8: `S##_call` returns its argument and leaves the guard holding that record with
`S##_C_safety = 1`, whatever the guard was; so `C( x )` followed by `C( y )` on two live
list records returns `y` with the guard armed for `y`, and the next `FUNC_THIS( N )`
binds `this` to `y`, not `x`. -/
theorem dispatch_last_wins (g : Guard) (w : World) (x y : Ptr) (lx ly : N)
    (hx : x ≠ 0) (hy : y ≠ 0) (hlx : w.lists x = some lx) (hly : w.lists y = some ly) :
    (S_call g x).1 = x ∧ (S_call g x).2 = { S_this := x, S_C_safety := 1 } ∧
      FUNC_THIS (S_call (S_call g x).2 y).2 =
        Except.ok (y, { S_this := y, S_C_safety := 0 }) ∧
      C x w = Res.ok x (w.arm x) ∧
      (C x >>= fun _ => C y) w = Res.ok y (w.arm y) ∧
      (C x >>= fun _ => C y >>= fun _ => FUNC_THIS_N) w = Res.ok y (w.enter y) := by
  have hly1 : (w.arm x).lists y = some ly := hly
  refine ⟨rfl, rfl, by simp [FUNC_THIS, S_call, hy], C_eq hx hlx, ?_, ?_⟩
  · rw [bind_apply, C_eq hx hlx]
    exact C_eq hy hly1
  · rw [bind_apply, C_eq hx hlx]
    simp only []
    rw [bind_apply, C_eq hy hly1]
    exact FUNC_THIS_N_arm hy

/-- Two fresh list records, at addresses `1` and `2`. -/
theorem dispatch_last_wins_witness :
    (S_call Guard.initial 1).1 = 1 ∧
      (S_call Guard.initial 1).2 = { S_this := 1, S_C_safety := 1 } ∧
      FUNC_THIS (S_call (S_call Guard.initial 1).2 2).2 =
        Except.ok (2, { S_this := 2, S_C_safety := 0 }) ∧
      C 1 twoLists = Res.ok 1 (twoLists.arm 1) ∧
      (C 1 >>= fun _ => C 2) twoLists = Res.ok 2 (twoLists.arm 2) ∧
      (C 1 >>= fun _ => C 2 >>= fun _ => FUNC_THIS_N) twoLists =
        Res.ok 2 (twoLists.enter 2) :=
  dispatch_last_wins Guard.initial twoLists 1 2 ⟨0, 0, 0⟩ ⟨0, 0, 0⟩ (by decide) (by decide)
    rfl rfl

theorem Quiet_pure {α : Type} (a : α) : Quiet (pure a : M α) := fun _ => ⟨rfl, rfl⟩

theorem Quiet_bind {α β : Type} {m : M α} {f : α → M β} (hm : Quiet m)
    (hf : ∀ a, Quiet (f a)) : Quiet (m >>= f) := by
  intro w
  have h1 := hm w
  rw [bind_apply]
  cases hr : m w with
  | ok a w1 =>
    rw [hr] at h1
    have h2 := hf a w1
    simp only []
    cases hr2 : f a w1 with
    | ok b w2 => rw [hr2] at h2; exact ⟨h2.1.trans h1.1, h2.2.trans h1.2⟩
    | err e w2 => rw [hr2] at h2; exact ⟨h2.1, h2.2.1.trans h1.1, h2.2.2.trans h1.2⟩
  | err e w1 =>
    rw [hr] at h1
    exact h1

theorem Quiet_ite {α : Type} {c : Prop} [Decidable c] {a b : M α} (ha : Quiet a)
    (hb : Quiet b) : Quiet (if c then a else b) := by
  split
  · exact ha
  · exact hb

theorem Quiet_ld_node (p : Ptr) : Quiet (ld_node p) := by
  intro w
  by_cases hp : p = 0 <;> cases hn : w.nodes p <;> simp [ld_node, hp, hn]

theorem Quiet_st_node (p : Ptr) (f : N_node → N_node) : Quiet (st_node p f) := by
  intro w
  by_cases hp : p = 0 <;> cases hn : w.nodes p <;> simp [st_node, hp, hn]

theorem Quiet_ld_list (p : Ptr) : Quiet (ld_list p) := by
  intro w
  by_cases hp : p = 0 <;> cases hn : w.lists p <;> simp [ld_list, hp, hn]

theorem Quiet_st_list (p : Ptr) (f : N → N) : Quiet (st_list p f) := by
  intro w
  by_cases hp : p = 0 <;> cases hn : w.lists p <;> simp [st_list, hp, hn]

theorem Quiet_free_node (p : Ptr) : Quiet (free_node p) := by
  intro w
  by_cases hp : p = 0 <;> cases hn : w.nodes p <;> simp [free_node, hp, hn]

theorem Quiet_MOO_MALLOC_N_node (m : Ptr) : Quiet (MOO_MALLOC_N_node m) := by
  intro w
  by_cases hm : m = 0 <;> simp [MOO_MALLOC_N_node, hm]

theorem Quiet_N_node_init (p : Ptr) : Quiet (N_node_init p) :=
  Quiet_bind (Quiet_st_node _ _) fun _ =>
    Quiet_bind (Quiet_st_node _ _) fun _ => Quiet_st_node _ _

theorem Quiet_NEW_N_node (m : Ptr) : Quiet (NEW_N_node m) :=
  Quiet_bind (Quiet_MOO_MALLOC_N_node m) fun _ =>
    Quiet_bind (Quiet_N_node_init _) fun _ => fun _ => ⟨rfl, rfl⟩

theorem Quiet_N_get_node_loop (k : Nat) : ∀ p, Quiet (N_get_node_loop k p) := by
  induction k with
  | zero => exact fun p => Quiet_pure p
  | succ k ih => exact fun p => Quiet_bind (Quiet_ld_node p) fun nd => ih nd.next

/-- A member function whose body after `FUNC_THIS( N )` is quiet binds once. -/
theorem Binds_entry {L : Ptr} (hL : L ≠ 0) {α : Type} {body : Ptr → M α}
    (hb : ∀ self, Quiet (body self)) : Binds L 1 (FUNC_THIS_N >>= body) := by
  intro w hg
  have hw : w = w.arm L := by
    cases w; simp only [World.arm] at hg ⊢; rw [hg]
  rw [hw, bind_apply, FUNC_THIS_N_arm hL]
  have h := hb L (w.enter L)
  simp only []
  cases hr : body L (w.enter L) with
  | ok a w1 =>
    rw [hr] at h
    exact ⟨h.1, h.2⟩
  | err e w1 =>
    rw [hr] at h
    exact ⟨h.1, 1, Nat.le_refl 1, h.2.2⟩

theorem arm_of_guard {w : World} {L : Ptr} (hg : w.N_guard = ⟨L, 1⟩) : w = w.arm L := by
  cases w; simp only [World.arm] at hg ⊢; rw [hg]

theorem C_cases (w : World) (L : Ptr) :
    C L w = Res.ok L (w.arm L) ∨ C L w = Res.err Err.MemoryFault w := by
  by_cases hL : L = 0
  · right; simp [C, bind_apply, ld_list, hL]
  · cases hl : w.lists L with
    | none => right; simp [C, bind_apply, ld_list, hL, hl]
    | some l => left; exact C_eq hL hl

theorem Binds_seq {L : Ptr} {k : Nat} {α β : Type} {m : M α} {f : α → M β}
    (hm : Binds L k m) (hf : ∀ a, Quiet (f a)) : Binds L k (m >>= f) := by
  intro w hg
  have h1 := hm w hg
  rw [bind_apply]
  cases hr : m w with
  | ok a w1 =>
    rw [hr] at h1
    have h2 := hf a w1
    simp only []
    cases hr2 : f a w1 with
    | ok b w2 => rw [hr2] at h2; exact ⟨h2.1.trans h1.1, h2.2.trans h1.2⟩
    | err e w2 => rw [hr2] at h2; exact ⟨h2.1, k, Nat.le_refl k, h2.2.2.trans h1.2⟩
  | err e w1 =>
    rw [hr] at h1
    exact h1

theorem Binds_pre {L : Ptr} {k : Nat} {α β : Type} {m : M α} {f : α → M β}
    (hm : Quiet m) (hf : ∀ a, Binds L k (f a)) : Binds L k (m >>= f) := by
  intro w hg
  have h1 := hm w
  rw [bind_apply]
  cases hr : m w with
  | ok a w1 =>
    rw [hr] at h1
    have h2 := hf a w1 (h1.1.trans hg)
    simp only []
    cases hr2 : f a w1 with
    | ok b w2 => rw [hr2] at h2; exact ⟨h2.1, by rw [h2.2, h1.2]⟩
    | err e w2 =>
      rw [hr2] at h2
      obtain ⟨he, j, hj, ht⟩ := h2
      exact ⟨he, j, hj, by rw [ht, h1.2]⟩
  | err e w1 =>
    rw [hr] at h1
    exact ⟨h1.1, 0, Nat.zero_le k, by simp [h1.2.2]⟩

/-- After a member function returned, `C( L )` followed by another member function. -/
theorem Binds_then_call {L : Ptr} {k1 k2 : Nat} {α β : Type} {m : M α} {f : α → M β}
    (hm : Binds L k1 m) (hf : ∀ a, Binds L k2 (f a)) :
    Binds L (k1 + k2) (m >>= fun a => C L >>= fun _ => f a) := by
  intro w hg
  have h1 := hm w hg
  rw [bind_apply]
  cases hr : m w with
  | ok a w1 =>
    rw [hr] at h1
    simp only []
    rw [bind_apply]
    rcases C_cases w1 L with hc | hc
    · rw [hc]
      have h2 := hf a (w1.arm L) rfl
      simp only []
      cases hr2 : f a (w1.arm L) with
      | ok b w2 =>
        rw [hr2] at h2
        refine ⟨h2.1, ?_⟩
        rw [h2.2]
        show w1.trace ++ _ = _
        rw [h1.2, List.append_assoc, ← List.replicate_add]
      | err e w2 =>
        rw [hr2] at h2
        obtain ⟨he, j, hj, ht⟩ := h2
        refine ⟨he, k1 + j, Nat.add_le_add_left hj k1, ?_⟩
        rw [ht]
        show w1.trace ++ _ = _
        rw [h1.2, List.append_assoc, ← List.replicate_add]
    · rw [hc]
      exact ⟨by decide, k1, Nat.le_add_right k1 k2, h1.2⟩
  | err e w1 =>
    rw [hr] at h1
    obtain ⟨he, j, hj, ht⟩ := h1
    exact ⟨he, j, Nat.le_trans hj (Nat.le_add_right k1 k2), ht⟩

/-- A member function that, after `FUNC_THIS( N )`, calls into the same list through
`C( this )`. -/
theorem Binds_nested {L : Ptr} (hL : L ≠ 0) {k : Nat} {α : Type} {inner : Ptr → M α}
    (hi : Binds L k (inner L)) :
    Binds L (1 + k) (FUNC_THIS_N >>= fun self => C self >>= fun _ => inner self) := by
  have h0 : Binds L 1 (FUNC_THIS_N >>= fun self => (pure self : M Ptr)) :=
    Binds_entry hL fun self => Quiet_pure self
  have h := Binds_then_call (f := fun _ => inner L) h0 (fun _ => hi)
  intro w hg
  have h1 := h w hg
  have hw := arm_of_guard hg
  rw [hw] at h1 ⊢
  simp only [bind_apply, FUNC_THIS_N_arm hL, pure_apply] at h1 ⊢
  exact h1

theorem Binds_N_get_node {L : Ptr} (hL : L ≠ 0) (i : Nat) : Binds L 1 (N_get_node i) := by
  unfold N_get_node
  apply Binds_entry hL
  intro self
  dsimp only
  repeat (first
    | exact Quiet_pure _ | exact Quiet_ld_list _ | exact Quiet_N_get_node_loop _ _
    | apply Quiet_bind | apply Quiet_ite | intro _)

theorem Binds_N_insert {L : Ptr} (hL : L ≠ 0) (m a x : Ptr) : Binds L 1 (N_insert m a x) := by
  unfold N_insert
  apply Binds_entry hL
  intro self
  dsimp only
  repeat (first
    | exact Quiet_pure _ | exact Quiet_ld_node _ | exact Quiet_st_node _ _
    | exact Quiet_ld_list _ | exact Quiet_st_list _ _
    | exact Quiet_NEW_N_node _ | apply Quiet_bind | apply Quiet_ite | intro _)

theorem Binds_N_delete_node {L : Ptr} (hL : L ≠ 0) (d : Ptr) :
    Binds L 1 (N_delete_node d) := by
  unfold N_delete_node
  apply Binds_entry hL
  intro self
  dsimp only
  repeat (first
    | exact Quiet_pure _ | exact Quiet_ld_node _ | exact Quiet_st_node _ _
    | exact Quiet_ld_list _ | exact Quiet_st_list _ _ | exact Quiet_free_node _
    | apply Quiet_bind | apply Quiet_ite | intro _)

theorem Binds_N_get {L : Ptr} (hL : L ≠ 0) (i : Nat) : Binds L 2 (N_get i) := by
  unfold N_get
  refine Binds_nested hL (Binds_seq (Binds_N_get_node hL i) ?_)
  intro node
  exact Quiet_ite (Quiet_bind (Quiet_ld_node _) fun _ => Quiet_pure _) (Quiet_pure _)

theorem Binds_N_remove {L : Ptr} (hL : L ≠ 0) (i : Nat) : Binds L 3 (N_remove i) := by
  unfold N_remove
  exact Binds_nested hL
    (Binds_then_call (Binds_N_get_node hL i) fun r => Binds_N_delete_node hL r)

theorem Binds_N_push_front {L : Ptr} (hL : L ≠ 0) (m x : Ptr) :
    Binds L 2 (N_push_front m x) := by
  unfold N_push_front
  exact Binds_nested hL (Binds_N_insert hL m 0 x)

theorem Binds_N_pop_front {L : Ptr} (hL : L ≠ 0) : Binds L 2 N_pop_front := by
  unfold N_pop_front
  exact Binds_nested hL (Binds_pre (Quiet_ld_list _) fun l => Binds_N_delete_node hL l.front)

theorem Binds_N_push_back {L : Ptr} (hL : L ≠ 0) (m x : Ptr) :
    Binds L 2 (N_push_back m x) := by
  unfold N_push_back
  exact Binds_nested hL (Binds_pre (Quiet_ld_list _) fun l => Binds_N_insert hL m l.back x)

theorem Binds_N_pop_back {L : Ptr} (hL : L ≠ 0) : Binds L 2 N_pop_back := by
  unfold N_pop_back
  exact Binds_nested hL (Binds_pre (Quiet_ld_list _) fun l => Binds_N_delete_node hL l.back)

theorem Binds_run {L : Ptr} (hL : L ≠ 0) (op : Op) : Binds L op.binds op.run := by
  cases op with
  | get_node i => exact Binds_N_get_node hL i
  | get i => exact Binds_N_get hL i
  | insert m a x => exact Binds_seq (Binds_N_insert hL m a x) fun _ => Quiet_pure _
  | delete_node d => exact Binds_N_delete_node hL d
  | remove i => exact Binds_N_remove hL i
  | push_front m x => exact Binds_seq (Binds_N_push_front hL m x) fun _ => Quiet_pure _
  | pop_front => exact Binds_N_pop_front hL
  | push_back m x => exact Binds_seq (Binds_N_push_back hL m x) fun _ => Quiet_pure _
  | pop_back => exact Binds_N_pop_back hL

theorem WF_record {w : World} {L : Ptr} {cs : List Cell} (h : WF w L cs) :
    ∃ l, w.lists L = some l ∧ Chain w.nodes l cs ∧ l.size = cs.length ∧
      N_size w L = l.size := by
  obtain ⟨l, hl, hc, hsz, _⟩ := h
  exact ⟨l, hl, hc, hsz, by simp [N_size, hl]⟩

theorem getD_eq_getElem? {xs : List Ptr} {i : Nat} (h : i < xs.length) :
    xs[i]? = some (xs.getD i 0) := by
  rw [List.getD_eq_getElem?_getD, List.getElem?_eq_getElem h]; rfl

/-- C11: on a well-formed list with cells `cs`, `get( index )` returns; for
`index < size` the result is the item at position `index`, which is the `item` field of
the node `get_node( index )` returns, and for `index >= size` the result is null. -/
theorem get_positional (w : World) (L : Ptr) (cs : List Cell) (index : Nat)
    (hL : L ≠ 0) (hw : WF w L cs) :
    ∃ r w1, exec L (Op.get index) w = Res.ok r w1 ∧
      (index < N_size w L →
        (items cs)[index]? = some r ∧
          ∃ p nd, exec L (Op.get_node index) w = Res.ok p (w.enter L) ∧
            w.nodes p = some nd ∧ nd.item = r) ∧
      (N_size w L ≤ index → r = 0) := by
  obtain ⟨l, hl, hc, hsz, hN⟩ := WF_record hw
  have hle : l.size ≤ cs.length := Nat.le_of_eq hsz
  refine ⟨_, _, exec_get hL hl hc hle index, ?_, ?_⟩
  · intro hi
    rw [hN] at hi
    simp only [hi, if_true]
    have hlt : index < cs.length := Nat.lt_of_lt_of_le hi hle
    obtain ⟨_, nd, hnd, hit⟩ := Seg_getD hc.2.2.1 hlt
    refine ⟨getD_eq_getElem? (by simpa [items] using hlt), (addrs cs).getD index 0, nd, ?_,
      hnd, hit⟩
    rw [exec_eq hL hl]
    have := N_get_node_eff hL hl hc hle index
    simpa only [Op.run, hi, if_true] using this
  · intro hi
    rw [hN] at hi
    simp [Nat.not_lt.2 hi]

/-- Witness for C11: position `1` of the list built by three pushes at address `1`. -/
theorem get_positional_witness :
    ∃ r w1, exec 1 (Op.get 1) (pushFronts 1 3) = Res.ok r w1 ∧
      (1 < N_size (pushFronts 1 3) 1 →
        (items (descCells 3))[1]? = some r ∧
          ∃ p nd, exec 1 (Op.get_node 1) (pushFronts 1 3) =
              Res.ok p ((pushFronts 1 3).enter 1) ∧
            (pushFronts 1 3).nodes p = some nd ∧ nd.item = r) ∧
      (N_size (pushFronts 1 3) 1 ≤ 1 → r = 0) :=
  get_positional (pushFronts 1 3) 1 (descCells 3) 1 (by decide)
    (WF_of_Inv (pushFronts_spec (by decide) 3).2.1 (by decide))

/-- C12: on a well-formed list with cells `cs` and for `index < size`, `remove( index )`
returns the item at position `index`, and so does `get_node( index )` followed by
`delete_node`; both leave the same node store, the same list records and the same
guards, namely the well-formed list with position `index` erased and `size` one less. -/
theorem remove_refines_get_then_delete (w : World) (L : Ptr) (cs : List Cell) (index : Nat)
    (hL : L ≠ 0) (hw : WF w L cs) (hi : index < N_size w L) :
    ∃ x w1 w2, exec L (Op.remove index) w = Res.ok x w1 ∧
      remove_via_get_node L index w = Res.ok x w2 ∧
      (items cs)[index]? = some x ∧
      w1.nodes = w2.nodes ∧ w1.lists = w2.lists ∧ w1.N_guard = w2.N_guard ∧
      w1.N_node_guard = w2.N_node_guard ∧
      WF w1 L (cs.eraseIdx index) ∧
      items (cs.eraseIdx index) = (items cs).eraseIdx index ∧
      N_size w1 L + 1 = N_size w L := by
  have hsize := WF_size hw
  have hlt := WF_length_lt hw
  obtain ⟨l, hl, hc, hsz, hN⟩ := WF_record hw
  have hle : l.size ≤ cs.length := Nat.le_of_eq hsz
  rw [hN] at hi
  have hil : index < cs.length := Nat.lt_of_lt_of_le hi hle
  obtain ⟨xs, ys, hcs, hlen⟩ := split_at hil
  have hx : (items cs)[index]? = some ((items cs).getD index 0) :=
    getD_eq_getElem? (by simpa [items] using hil)
  generalize (items cs).getD index 0 = x at hcs hx
  generalize hd : (addrs cs).getD index 0 = d at hcs
  have hc1 : Chain w.nodes l (xs ++ (d, x) :: ys) := by rw [← hcs]; exact hc
  have hle1 : l.size ≤ (xs ++ (d, x) :: ys).length := by rw [← hcs]; exact hle
  have hi1 : xs.length < l.size := by rw [hlen]; exact hi
  have hrun := N_remove_run_hit hL hl hc1 hle1 hi1
  rw [hlen] at hrun
  have he1 : exec L (Op.remove index) w =
      Res.ok x (((w.enter L).enter L).deleted L l d (lastA xs 0) (hdA ys 0)) := by
    rw [exec_eq hL hl]; exact hrun
  have hg : exec L (Op.get_node index) w = Res.ok d (w.enter L) := by
    rw [exec_eq hL hl]
    have := N_get_node_eff hL hl hc hle index
    simpa only [Op.run, hi, if_true, hd] using this
  have hl1 : (w.enter L).lists L = some l := hl
  have hc2 : Chain (w.enter L).nodes l (xs ++ (d, x) :: ys) := hc1
  have hdel := exec_delete_node xs ys hL hl1 hc2
  have he2 : remove_via_get_node L index w =
      Res.ok x ((w.enter L).deleted L l d (lastA xs 0) (hdA ys 0)) := by
    show (exec L (Op.get_node index) >>= fun node => exec L (Op.delete_node node)) w = _
    rw [bind_apply, hg]
    exact hdel
  have hsz1 : l.size = (xs ++ (d, x) :: ys).length % UINT_RANGE := by
    rw [← hcs, hsz]; exact (Nat.mod_eq_of_lt hlt).symm
  have hI := deleted_Inv (w := (w.enter L).enter L) (L := L) xs ys hc1 hsz1
  have her : cs.eraseIdx index = xs ++ ys := by
    rw [hcs, ← hlen]
    exact List.eraseIdx_append_of_length_le (Nat.le_refl _) _ ▸ by simp
  have hlen2 : (xs ++ ys).length + 1 = cs.length := by
    have := congrArg List.length hcs
    simp only [List.length_append, List.length_cons] at this ⊢
    omega
  have hw1 := WF_of_Inv hI (by omega)
  rw [← her] at hw1 hlen2
  refine ⟨x, _, _, he1, he2, hx, rfl, rfl, rfl, rfl, hw1, items_eraseIdx cs index, ?_⟩
  rw [WF_size hw1, hsize, hlen2]

/-- Witness for C12: removing position `1` of the list built by three pushes. -/
theorem remove_refines_get_then_delete_witness :
    ∃ x w1 w2, exec 1 (Op.remove 1) (pushFronts 1 3) = Res.ok x w1 ∧
      remove_via_get_node 1 1 (pushFronts 1 3) = Res.ok x w2 ∧
      (items (descCells 3))[1]? = some x ∧
      w1.nodes = w2.nodes ∧ w1.lists = w2.lists ∧ w1.N_guard = w2.N_guard ∧
      w1.N_node_guard = w2.N_node_guard ∧
      WF w1 1 ((descCells 3).eraseIdx 1) ∧
      items ((descCells 3).eraseIdx 1) = (items (descCells 3)).eraseIdx 1 ∧
      N_size w1 1 + 1 = N_size (pushFronts 1 3) 1 :=
  remove_refines_get_then_delete (pushFronts 1 3) 1 (descCells 3) 1 (by decide)
    (WF_of_Inv (pushFronts_spec (by decide) 3).2.1 (by decide))
    (by rw [WF_size (WF_of_Inv (pushFronts_spec (by decide) 3).2.1 (by decide))]; decide)

/-- C13: on a well-formed list, `remove( index )` with `index >= size` returns null and
leaves every node and every list record, so `size`, `front`, `back` and all links and
items, as they were. -/
theorem remove_out_of_range (w : World) (L : Ptr) (cs : List Cell) (index : Nat)
    (hL : L ≠ 0) (hw : WF w L cs) (hi : N_size w L ≤ index) :
    ∃ w1, exec L (Op.remove index) w = Res.ok 0 w1 ∧
      w1.nodes = w.nodes ∧ w1.lists = w.lists := by
  obtain ⟨l, hl, hc, hsz, hN⟩ := WF_record hw
  rw [hN] at hi
  refine ⟨((w.enter L).enter L).enter L, ?_, rfl, rfl⟩
  rw [exec_eq hL hl]
  exact N_remove_run_miss hL hl hc (Nat.le_of_eq hsz) hi

/-- Witness for C13: `remove( 5 )` on the list of size two built by two pushes. -/
theorem remove_out_of_range_witness :
    ∃ w1, exec 1 (Op.remove 5) (pushFronts 1 2) = Res.ok 0 w1 ∧
      w1.nodes = (pushFronts 1 2).nodes ∧ w1.lists = (pushFronts 1 2).lists :=
  remove_out_of_range (pushFronts 1 2) 1 (descCells 2) 5 (by decide)
    (WF_of_Inv (pushFronts_spec (by decide) 2).2.1 (by decide))
    (by rw [WF_size (WF_of_Inv (pushFronts_spec (by decide) 2).2.1 (by decide))]; decide)

theorem exec_pop_front_null {w : World} {L : Ptr} {l : N}
    (hL : L ≠ 0) (hl : w.lists L = some l) (hfr : l.front = 0) :
    exec L Op.pop_front w = Res.ok 0 ((w.enter L).enter L) := by
  have hl1 : (w.enter L).lists L = some l := hl
  have hl2 : ((w.enter L).arm L).lists L = some l := hl
  rw [exec_eq hL hl]
  simp [Op.run, N_pop_front, bind_apply, FUNC_THIS_N_arm hL, C_eq hL hl1, ld_list, hL, hl2,
    hfr, N_delete_node_null hL]

theorem exec_pop_back_null {w : World} {L : Ptr} {l : N}
    (hL : L ≠ 0) (hl : w.lists L = some l) (hbk : l.back = 0) :
    exec L Op.pop_back w = Res.ok 0 ((w.enter L).enter L) := by
  have hl1 : (w.enter L).lists L = some l := hl
  have hl2 : ((w.enter L).arm L).lists L = some l := hl
  rw [exec_eq hL hl]
  simp [Op.run, N_pop_back, bind_apply, FUNC_THIS_N_arm hL, C_eq hL hl1, ld_list, hL, hl2,
    hbk, N_delete_node_null hL]

/-- C14: on every list record, whatever its chain, `delete_node( NULL )` returns null and
leaves every node and every list record as it was; so does `pop_front` when `front` is
null and `pop_back` when `back` is null, hence an empty list (`front`, `back` null and
`size` zero) stays empty with `size` zero. -/
theorem remove_nothing (w : World) (L : Ptr) (l : N) (hL : L ≠ 0)
    (hl : w.lists L = some l) :
    (∃ w1, exec L (Op.delete_node 0) w = Res.ok 0 w1 ∧
        w1.nodes = w.nodes ∧ w1.lists = w.lists) ∧
      (l.front = 0 → ∃ w1, exec L Op.pop_front w = Res.ok 0 w1 ∧
        w1.nodes = w.nodes ∧ w1.lists = w.lists) ∧
      (l.back = 0 → ∃ w1, exec L Op.pop_back w = Res.ok 0 w1 ∧
        w1.nodes = w.nodes ∧ w1.lists = w.lists) ∧
      (l = ⟨0, 0, 0⟩ →
        (∃ w1, exec L Op.pop_front w = Res.ok 0 w1 ∧ w1.lists L = some ⟨0, 0, 0⟩) ∧
        (∃ w1, exec L Op.pop_back w = Res.ok 0 w1 ∧ w1.lists L = some ⟨0, 0, 0⟩)) := by
  refine ⟨⟨w.enter L, ?_, rfl, rfl⟩, ?_, ?_, ?_⟩
  · rw [exec_eq hL hl]
    exact N_delete_node_null hL
  · intro h
    exact ⟨_, exec_pop_front_null hL hl h, rfl, rfl⟩
  · intro h
    exact ⟨_, exec_pop_back_null hL hl h, rfl, rfl⟩
  · intro h
    subst h
    exact ⟨⟨_, exec_pop_front_null hL hl rfl, hl⟩, ⟨_, exec_pop_back_null hL hl rfl, hl⟩⟩

/-- Witness for C14: the fresh, empty list at address `1`. -/
theorem remove_nothing_witness :
    (∃ w1, exec 1 (Op.delete_node 0) (World.fresh 1) = Res.ok 0 w1 ∧
        w1.nodes = (World.fresh 1).nodes ∧ w1.lists = (World.fresh 1).lists) ∧
      ((⟨0, 0, 0⟩ : N).front = 0 → ∃ w1, exec 1 Op.pop_front (World.fresh 1) = Res.ok 0 w1 ∧
        w1.nodes = (World.fresh 1).nodes ∧ w1.lists = (World.fresh 1).lists) ∧
      ((⟨0, 0, 0⟩ : N).back = 0 → ∃ w1, exec 1 Op.pop_back (World.fresh 1) = Res.ok 0 w1 ∧
        w1.nodes = (World.fresh 1).nodes ∧ w1.lists = (World.fresh 1).lists) ∧
      ((⟨0, 0, 0⟩ : N) = ⟨0, 0, 0⟩ →
        (∃ w1, exec 1 Op.pop_front (World.fresh 1) = Res.ok 0 w1 ∧
          w1.lists 1 = some ⟨0, 0, 0⟩) ∧
        (∃ w1, exec 1 Op.pop_back (World.fresh 1) = Res.ok 0 w1 ∧
          w1.lists 1 = some ⟨0, 0, 0⟩)) :=
  remove_nothing (World.fresh 1) 1 ⟨0, 0, 0⟩ (by decide) (by decide)

theorem HasItems_of_Inv {w : World} {L : Ptr} {cs : List Cell} (h : Inv w L cs) :
    HasItems w L (items cs) := by
  obtain ⟨l, hl, hc, _⟩ := h
  exact ⟨l, cs, hl, hc, rfl⟩

/-- C15: on a well-formed list with cells `cs` and items `s`, `push_front( x )` makes the
item sequence `x :: s` and `push_back( x )` makes it `s ++ [x]` (also for empty `s`, and
the list stays well-formed when there is room for one more node in `size`); on a
non-empty list `pop_front` returns the first item and `pop_back` the last, each leaving
the well-formed list of the remaining items in their order. -/
theorem push_pop_ends (w : World) (L : Ptr) (cs : List Cell) (m x : Ptr)
    (hL : L ≠ 0) (hw : WF w L cs) (hm : m ≠ 0) (hf : w.nodes m = none) :
    (∃ w1, exec L (Op.push_front m x) w = Res.ok 0 w1 ∧ HasItems w1 L (x :: items cs) ∧
        (cs.length + 1 < UINT_RANGE → WF w1 L ((m, x) :: cs))) ∧
      (∃ w1, exec L (Op.push_back m x) w = Res.ok 0 w1 ∧ HasItems w1 L (items cs ++ [x]) ∧
        (cs.length + 1 < UINT_RANGE → WF w1 L (cs ++ [(m, x)]))) ∧
      (∀ c rest, cs = c :: rest →
        ∃ w1, exec L Op.pop_front w = Res.ok c.2 w1 ∧ WF w1 L rest ∧
          HasItems w1 L (items rest)) ∧
      (∀ c rest, cs = rest ++ [c] →
        ∃ w1, exec L Op.pop_back w = Res.ok c.2 w1 ∧ WF w1 L rest ∧
          HasItems w1 L (items rest)) := by
  have hlt := WF_length_lt hw
  obtain ⟨l, hl, hc, hsz⟩ := Inv_of_WF hw
  refine ⟨?_, ?_, ?_, ?_⟩
  · have hc1 : Chain (w.enter L).nodes l ([] ++ cs) := hc
    have hI := inserted_Inv (w := w.enter L) (L := L) [] cs x hc1 hsz hm hf
    simp only [lastA, List.nil_append] at hI
    exact ⟨_, exec_push_front x hL hl hc hm hf, HasItems_of_Inv hI,
      fun hroom => WF_of_Inv hI (by simpa using hroom)⟩
  · have hI := Inv_push_back (L := L) x hc hsz hm hf
    refine ⟨_, exec_push_back x hL hl hc hm hf, ?_, fun hroom => WF_of_Inv hI (by simpa using hroom)⟩
    have := HasItems_of_Inv hI
    simpa [items] using this
  · rintro ⟨d, y⟩ rest rfl
    have hc1 : Chain (w.enter L).nodes l ([] ++ (d, y) :: rest) := hc
    have hI := deleted_Inv (w := w.enter L) (L := L) [] rest hc1 hsz
    simp only [lastA, List.nil_append] at hI
    have hlen : rest.length < UINT_RANGE := by
      simp only [List.length_cons] at hlt; omega
    exact ⟨_, exec_pop_front_cons hL hl hc, WF_of_Inv hI hlen, HasItems_of_Inv hI⟩
  · rintro ⟨d, y⟩ rest rfl
    have hI := deleted_Inv (w := w.enter L) (L := L) rest [] hc hsz
    simp only [hdA, List.append_nil] at hI
    have hlen : rest.length < UINT_RANGE := by
      simp only [List.length_append, List.length_cons, List.length_nil] at hlt; omega
    exact ⟨_, exec_pop_back_snoc hL hl hc, WF_of_Inv hI hlen, HasItems_of_Inv hI⟩

/-- Witness for C15: pushing and popping on the list built by two pushes. -/
theorem push_pop_ends_witness :
    (∃ w1, exec 1 (Op.push_front 9 5) (pushFronts 1 2) = Res.ok 0 w1 ∧
        HasItems w1 1 (5 :: items (descCells 2)) ∧
        ((descCells 2).length + 1 < UINT_RANGE → WF w1 1 ((9, 5) :: descCells 2))) ∧
      (∃ w1, exec 1 (Op.push_back 9 5) (pushFronts 1 2) = Res.ok 0 w1 ∧
        HasItems w1 1 (items (descCells 2) ++ [5]) ∧
        ((descCells 2).length + 1 < UINT_RANGE → WF w1 1 (descCells 2 ++ [(9, 5)]))) ∧
      (∀ c rest, descCells 2 = c :: rest →
        ∃ w1, exec 1 Op.pop_front (pushFronts 1 2) = Res.ok c.2 w1 ∧ WF w1 1 rest ∧
          HasItems w1 1 (items rest)) ∧
      (∀ c rest, descCells 2 = rest ++ [c] →
        ∃ w1, exec 1 Op.pop_back (pushFronts 1 2) = Res.ok c.2 w1 ∧ WF w1 1 rest ∧
          HasItems w1 1 (items rest)) :=
  push_pop_ends (pushFronts 1 2) 1 (descCells 2) 9 5 (by decide)
    (WF_of_Inv (pushFronts_spec (by decide) 2).2.1 (by decide)) (by decide)
    ((pushFronts_spec (by decide) 2).2.2 9 (by decide))

theorem GuardInv_step {s s1 : Guard × Option Ptr} {e : GuardEvent}
    (he : e ≠ GuardEvent.dispatch 0) (h : e.step s = some s1) :
    GuardInv s1 := by
  cases e with
  | dispatch p =>
    simp only [GuardEvent.step, Option.some.injEq] at h
    subst h
    intro _
    refine ⟨fun hp => he ?_, rfl⟩
    have hp0 : p = 0 := hp
    rw [hp0]
  | bindSelf =>
    unfold GuardEvent.step FUNC_THIS at h
    by_cases hc : s.1.S_C_safety = 0 ∨ s.1.S_this = 0
    · simp [hc] at h
    · simp only [hc, if_false, Option.some.injEq] at h
      subst h
      intro hne
      exact absurd rfl hne
  | construct =>
    simp only [GuardEvent.step, Option.some.injEq] at h
    subst h
    intro hne
    exact absurd rfl hne

theorem GuardInv_run (es : List GuardEvent) :
    ∀ s s1 : Guard × Option Ptr, GuardInv s → dispatchesNonNull es →
      runEvents s es = some s1 → GuardInv s1 := by
  induction es with
  | nil =>
    intro s s1 hs _ h
    simp only [runEvents, Option.some.injEq] at h
    exact h ▸ hs
  | cons e es ih =>
    intro s s1 hs hnn h
    unfold runEvents at h
    cases hst : e.step s with
    | none => rw [hst] at h; exact Option.noConfusion h
    | some s2 =>
      rw [hst] at h
      have h2 := GuardInv_step (hnn e (List.mem_cons_self _ _)) hst
      exact ih s2 s1 h2 (fun e1 he1 => hnn e1 (List.mem_cons_of_mem _ he1)) h

/-- C16: in every guard state reached from the initial one (`S##_C_safety = 0`,
`S##_this` null) by any sequence of dispatches on non-null records, `FUNC_THIS` and
`NEW`, a set `S##_C_safety` implies that `S##_this` is non-null and is the argument of
the most recent dispatch. -/
theorem guard_invariant (es : List GuardEvent) (g : Guard) (last : Option Ptr)
    (hnn : dispatchesNonNull es) (hrun : runEvents (Guard.initial, none) es = some (g, last))
    (harmed : g.S_C_safety ≠ 0) : g.S_this ≠ 0 ∧ last = some g.S_this :=
  GuardInv_run es _ _ (fun h => absurd rfl h) hnn hrun harmed

/-- Witness for C16: dispatch `3`, bind, construct, dispatch `5`, dispatch `7`. -/
theorem guard_invariant_witness :
    (⟨7, 1⟩ : Guard).S_this ≠ 0 ∧ some 7 = some (⟨7, 1⟩ : Guard).S_this :=
  guard_invariant
    [GuardEvent.dispatch 3, GuardEvent.bindSelf, GuardEvent.construct,
      GuardEvent.dispatch 5, GuardEvent.dispatch 7]
    ⟨7, 1⟩ (some 7) (by decide) (by decide) (by decide)

theorem FUNC_THIS_N_unarmed {w : World} (h : w.N_guard.S_C_safety = 0) :
    FUNC_THIS_N w = Res.err Err.ProtocolViolation w := by
  simp [FUNC_THIS_N, FUNC_THIS, h]

/-- C17: `NEW` for a record type, whatever the guard of that type held before (also a
pending dispatch), returns with the type's `C_safety` zero, so a `FUNC_THIS` of that
type right after it, with no `C()` between, raises `ProtocolViolation`; and whatever
the block held when `malloc` handed it out, the new record has the fields its
initialiser sets: a list has `front`, `back` null and `size` zero, a node has `item`,
`previous`, `next` null. -/
theorem construct_clears_handshake (w : World) (m : Ptr) (hm : m ≠ 0) :
    (∀ g, (NEW_guard g).S_C_safety = 0 ∧
        FUNC_THIS (NEW_guard g) = Except.error Err.ProtocolViolation) ∧
      (∃ w1, NEW_N m w = Res.ok m w1 ∧ w1.N_guard.S_C_safety = 0 ∧
        FUNC_THIS_N w1 = Res.err Err.ProtocolViolation w1 ∧
        w1.lists m = some ⟨0, 0, 0⟩) ∧
      (∃ w1, NEW_N_node m w = Res.ok m w1 ∧ w1.N_node_guard.S_C_safety = 0 ∧
        FUNC_THIS w1.N_node_guard = Except.error Err.ProtocolViolation ∧
        w1.nodes m = some ⟨0, 0, 0⟩) := by
  refine ⟨fun g => ⟨rfl, by simp [FUNC_THIS, NEW_guard]⟩, ?_, ?_⟩
  · have h : ∃ w1, NEW_N m w = Res.ok m w1 ∧ w1.N_guard.S_C_safety = 0 ∧
        w1.lists m = some ⟨0, 0, 0⟩ := by
      simp [NEW_N, MOO_MALLOC_N, N_init, bind_apply, st_list, hm, NEW_guard]
    obtain ⟨w1, h1, h2, h3⟩ := h
    exact ⟨w1, h1, h2, FUNC_THIS_N_unarmed h2, h3⟩
  · simp [NEW_N_node, MOO_MALLOC_N_node, N_node_init, bind_apply, st_node, hm, NEW_guard,
      FUNC_THIS]

/-- Witness for C17: constructing at address `3`, where the block holds `7`, `8`, `9`,
while a dispatch on list `1` is pending. -/
theorem construct_clears_handshake_witness :
    (∀ g, (NEW_guard g).S_C_safety = 0 ∧
        FUNC_THIS (NEW_guard g) = Except.error Err.ProtocolViolation) ∧
      (∃ w1, NEW_N 3 (twoLists.arm 1) = Res.ok 3 w1 ∧ w1.N_guard.S_C_safety = 0 ∧
        FUNC_THIS_N w1 = Res.err Err.ProtocolViolation w1 ∧
        w1.lists 3 = some ⟨0, 0, 0⟩) ∧
      (∃ w1, NEW_N_node 3 (twoLists.arm 1) = Res.ok 3 w1 ∧
        w1.N_node_guard.S_C_safety = 0 ∧
        FUNC_THIS w1.N_node_guard = Except.error Err.ProtocolViolation ∧
        w1.nodes 3 = some ⟨0, 0, 0⟩) :=
  construct_clears_handshake (twoLists.arm 1) 3 (by decide)

/-- C18: when `malloc` fails inside `insert` (it returns `NULL`), `insert`, `push_front`
and `push_back` on any list record, with any node argument and item, stop with
`AllocationError`, and at that point every node and every list record, so `size`,
`front`, `back` and all links and items, is as it was before the call. -/
theorem insert_alloc_failure (w : World) (L : Ptr) (l : N) (a x : Ptr) (hL : L ≠ 0)
    (hl : w.lists L = some l) :
    (∃ w1, exec L (Op.insert 0 a x) w = Res.err Err.AllocationError w1 ∧
        w1.nodes = w.nodes ∧ w1.lists = w.lists) ∧
      (∃ w1, exec L (Op.push_front 0 x) w = Res.err Err.AllocationError w1 ∧
        w1.nodes = w.nodes ∧ w1.lists = w.lists) ∧
      (∃ w1, exec L (Op.push_back 0 x) w = Res.err Err.AllocationError w1 ∧
        w1.nodes = w.nodes ∧ w1.lists = w.lists) := by
  have hl1 : (w.enter L).lists L = some l := hl
  have hl2 : ((w.enter L).arm L).lists L = some l := hl
  have hins : ∀ (v : World) (b : Ptr),
      N_insert 0 b x (v.arm L) = Res.err Err.AllocationError (v.enter L) := by
    intro v b
    simp [N_insert, bind_apply, FUNC_THIS_N_arm hL, NEW_N_node, MOO_MALLOC_N_node]
  refine ⟨⟨w.enter L, ?_, rfl, rfl⟩, ⟨(w.enter L).enter L, ?_, rfl, rfl⟩,
    ⟨(w.enter L).enter L, ?_, rfl, rfl⟩⟩
  · rw [exec_eq hL hl]
    simp [Op.run, bind_apply, hins]
  · rw [exec_eq hL hl]
    simp [Op.run, N_push_front, bind_apply, FUNC_THIS_N_arm hL, C_eq hL hl1, hins]
  · rw [exec_eq hL hl]
    simp [Op.run, N_push_back, bind_apply, FUNC_THIS_N_arm hL, C_eq hL hl1, ld_list, hL, hl2,
      hins]

/-- Witness for C18: a failing allocation on the fresh list at address `1`. -/
theorem insert_alloc_failure_witness :
    (∃ w1, exec 1 (Op.insert 0 0 5) (World.fresh 1) = Res.err Err.AllocationError w1 ∧
        w1.nodes = (World.fresh 1).nodes ∧ w1.lists = (World.fresh 1).lists) ∧
      (∃ w1, exec 1 (Op.push_front 0 5) (World.fresh 1) = Res.err Err.AllocationError w1 ∧
        w1.nodes = (World.fresh 1).nodes ∧ w1.lists = (World.fresh 1).lists) ∧
      (∃ w1, exec 1 (Op.push_back 0 5) (World.fresh 1) = Res.err Err.AllocationError w1 ∧
        w1.nodes = (World.fresh 1).nodes ∧ w1.lists = (World.fresh 1).lists) :=
  insert_alloc_failure (World.fresh 1) 1 ⟨0, 0, 0⟩ 0 5 (by decide) (by decide)

theorem run_unarmed {w : World} (h : w.N_guard.S_C_safety = 0) (op : Op) :
    op.run w = Res.err Err.ProtocolViolation w := by
  have hF := FUNC_THIS_N_unarmed h
  cases op <;>
    simp [Op.run, N_get_node, N_get, N_insert, N_delete_node, N_remove, N_push_front,
      N_pop_front, N_push_back, N_pop_back, bind_apply, hF]

/-- C20: when a list operation called as `C(L)->op( args )` returns, the guard of the
list type holds `L` with `C_safety` zero (also after the calls the operation made
through `C( this )`), so any list member function entered next without a fresh `C()`
raises `ProtocolViolation` and changes nothing. -/
theorem ops_consume_handshake (w w1 : World) (L r : Ptr) (op : Op)
    (h : exec L op w = Res.ok r w1) :
    w1.N_guard = ⟨L, 0⟩ ∧ ∀ op2 : Op, op2.run w1 = Res.err Err.ProtocolViolation w1 := by
  have hL := exec_ne_zero h
  have hg : w1.N_guard = ⟨L, 0⟩ := by
    rcases C_cases w L with hc | hc
    · have hb := Binds_run hL op (w.arm L) rfl
      have he : exec L op w = op.run (w.arm L) := by
        show (C L >>= fun _ => op.run) w = _
        rw [bind_apply, hc]
      rw [he] at h
      rw [h] at hb
      exact hb.1
    · have he : exec L op w = Res.err Err.MemoryFault w := by
        show (C L >>= fun _ => op.run) w = _
        rw [bind_apply, hc]
      rw [he] at h
      exact Res.noConfusion h
  exact ⟨hg, fun op2 => run_unarmed (by rw [hg]) op2⟩

/-- Witness for C20: `pop_front` on the fresh list at address `1`. -/
theorem ops_consume_handshake_witness :
    (((World.fresh 1).enter 1).enter 1).N_guard = ⟨1, 0⟩ ∧
      ∀ op2 : Op, op2.run (((World.fresh 1).enter 1).enter 1) =
        Res.err Err.ProtocolViolation (((World.fresh 1).enter 1).enter 1) :=
  ops_consume_handshake (World.fresh 1) (((World.fresh 1).enter 1).enter 1) 1 0 Op.pop_front
    (@exec_pop_front_null (World.fresh 1) 1 ⟨0, 0, 0⟩ (by decide) (by decide) rfl)

theorem Resp_pure {α : Type} (a : α) : Resp (pure a : M α) :=
  fun _ _ h => ⟨rfl, h⟩

theorem Resp_bind {α β : Type} {m : M α} {f : α → M β} (hm : Resp m)
    (hf : ∀ a, Resp (f a)) : Resp (m >>= f) := by
  intro w v h
  have h1 := hm w v h
  rw [bind_apply, bind_apply]
  cases hw : m w with
  | ok a w1 =>
    cases hv : m v with
    | ok b v1 =>
      rw [hw, hv] at h1
      obtain ⟨rfl, h2⟩ := h1
      exact hf a w1 v1 h2
    | err e v1 => rw [hw, hv] at h1; exact h1.elim
  | err e w1 =>
    cases hv : m v with
    | ok b v1 => rw [hw, hv] at h1; exact h1.elim
    | err f v1 => rw [hw, hv] at h1; exact h1

theorem Resp_ite {α : Type} {c : Prop} [Decidable c] {a b : M α} (ha : Resp a)
    (hb : Resp b) : Resp (if c then a else b) := by
  split
  · exact ha
  · exact hb

theorem Resp_ld_node (p : Ptr) : Resp (ld_node p) := by
  intro w v h
  obtain ⟨hn, hl, hg⟩ := h
  by_cases hp : p = 0 <;> cases hq : v.nodes p <;>
    simp [Agree, SameMem, ld_node, hp, hq, hn, hl, hg]

theorem Resp_st_node (p : Ptr) (f : N_node → N_node) : Resp (st_node p f) := by
  intro w v h
  obtain ⟨hn, hl, hg⟩ := h
  by_cases hp : p = 0 <;> cases hq : v.nodes p <;>
    simp [Agree, SameMem, st_node, hp, hq, hn, hl, hg]

theorem Resp_free_node (p : Ptr) : Resp (free_node p) := by
  intro w v h
  obtain ⟨hn, hl, hg⟩ := h
  by_cases hp : p = 0 <;> cases hq : v.nodes p <;>
    simp [Agree, SameMem, free_node, hp, hq, hn, hl, hg]

theorem Resp_ld_list (p : Ptr) : Resp (ld_list p) := by
  intro w v h
  obtain ⟨hn, hl, hg⟩ := h
  by_cases hp : p = 0 <;> cases hq : v.lists p <;>
    simp [Agree, SameMem, ld_list, hp, hq, hn, hl, hg]

theorem Resp_st_list (p : Ptr) (f : N → N) : Resp (st_list p f) := by
  intro w v h
  obtain ⟨hn, hl, hg⟩ := h
  by_cases hp : p = 0 <;> cases hq : v.lists p <;>
    simp [Agree, SameMem, st_list, hp, hq, hn, hl, hg]

/-- `NEW` on a node in closed form: whatever the block held, every field is null. -/
theorem NEW_N_node_eq (m : Ptr) (w : World) :
    NEW_N_node m w =
      if m = 0 then Res.err Err.AllocationError w
      else Res.ok m { w with
        nodes := Function.update w.nodes m (some ⟨0, 0, 0⟩)
        N_node_guard := NEW_guard w.N_node_guard } := by
  by_cases hm : m = 0 <;>
    simp [NEW_N_node, MOO_MALLOC_N_node, N_node_init, bind_apply, st_node, hm]

theorem Resp_NEW_N_node (m : Ptr) : Resp (NEW_N_node m) := by
  intro w v h
  obtain ⟨hn, hl, hg⟩ := h
  rw [NEW_N_node_eq, NEW_N_node_eq]
  by_cases hm : m = 0 <;> simp [Agree, SameMem, hm, hn, hl, hg]

theorem Resp_FUNC_THIS_N : Resp FUNC_THIS_N := by
  intro w v h
  obtain ⟨hn, hl, hg⟩ := h
  by_cases hc : v.N_guard.S_C_safety = 0 ∨ v.N_guard.S_this = 0 <;>
    simp [Agree, SameMem, FUNC_THIS_N, FUNC_THIS, hc, hn, hl, hg]

theorem Resp_C (L : Ptr) : Resp (C L) := by
  unfold C
  refine Resp_bind (Resp_ld_list L) fun _ => ?_
  intro w v h
  exact ⟨rfl, h.1, h.2.1, rfl⟩

theorem Resp_N_get_node_loop (k : Nat) : ∀ p, Resp (N_get_node_loop k p) := by
  induction k with
  | zero => exact fun p => Resp_pure p
  | succ k ih => exact fun p => Resp_bind (Resp_ld_node p) fun nd => ih nd.next

theorem Resp_N_get_node (i : Nat) : Resp (N_get_node i) := by
  unfold N_get_node
  repeat (first
    | exact Resp_pure _ | exact Resp_ld_list _ | exact Resp_N_get_node_loop _ _
    | exact Resp_FUNC_THIS_N | apply Resp_bind | apply Resp_ite | intro _)

theorem Resp_N_insert (m a x : Ptr) : Resp (N_insert m a x) := by
  unfold N_insert
  apply Resp_bind Resp_FUNC_THIS_N
  intro self
  dsimp only
  repeat (first
    | exact Resp_pure _ | exact Resp_ld_node _ | exact Resp_st_node _ _
    | exact Resp_ld_list _ | exact Resp_st_list _ _
    | exact Resp_NEW_N_node _ | apply Resp_bind | apply Resp_ite | intro _)

theorem Resp_N_delete_node (d : Ptr) : Resp (N_delete_node d) := by
  unfold N_delete_node
  apply Resp_bind Resp_FUNC_THIS_N
  intro self
  dsimp only
  repeat (first
    | exact Resp_pure _ | exact Resp_ld_node _ | exact Resp_st_node _ _
    | exact Resp_ld_list _ | exact Resp_st_list _ _ | exact Resp_free_node _
    | apply Resp_bind | apply Resp_ite | intro _)

theorem Resp_run (op : Op) : Resp op.run := by
  cases op with
  | get_node i => exact Resp_N_get_node i
  | get i =>
    exact Resp_bind Resp_FUNC_THIS_N fun self => Resp_bind (Resp_C self) fun _ =>
      Resp_bind (Resp_N_get_node i) fun node =>
        Resp_ite (Resp_bind (Resp_ld_node _) fun _ => Resp_pure _) (Resp_pure _)
  | insert m a x => exact Resp_bind (Resp_N_insert m a x) fun _ => Resp_pure _
  | delete_node d => exact Resp_N_delete_node d
  | remove i =>
    exact Resp_bind Resp_FUNC_THIS_N fun self => Resp_bind (Resp_C self) fun _ =>
      Resp_bind (Resp_N_get_node i) fun r => Resp_bind (Resp_C self) fun _ =>
        Resp_N_delete_node r
  | push_front m x =>
    exact Resp_bind (Resp_bind Resp_FUNC_THIS_N fun self => Resp_bind (Resp_C self) fun _ =>
      Resp_N_insert m 0 x) fun _ => Resp_pure _
  | pop_front =>
    exact Resp_bind Resp_FUNC_THIS_N fun self => Resp_bind (Resp_C self) fun _ =>
      Resp_bind (Resp_ld_list self) fun l => Resp_N_delete_node l.front
  | push_back m x =>
    exact Resp_bind (Resp_bind Resp_FUNC_THIS_N fun self => Resp_bind (Resp_C self) fun _ =>
      Resp_bind (Resp_ld_list self) fun l => Resp_N_insert m l.back x) fun _ => Resp_pure _
  | pop_back =>
    exact Resp_bind Resp_FUNC_THIS_N fun self => Resp_bind (Resp_C self) fun _ =>
      Resp_bind (Resp_ld_list self) fun l => Resp_N_delete_node l.back

theorem Agree_weaken {α : Type} {a b : Res α} (h : Agree SameMem a b) :
    Agree SameStore a b := by
  cases a <;> cases b <;> simp only [Agree] at h ⊢
  · exact ⟨h.1, h.2.1, h.2.2.1⟩
  · exact ⟨h.1, h.2.1, h.2.2.1⟩

/-- A call `C(L)->op( args )` has the same outcome in two states that hold the same
nodes and list records, whatever their guards and histories. -/
theorem exec_agree (L : Ptr) (op : Op) {w v : World} (h : SameStore w v) :
    Agree SameStore (exec L op w) (exec L op v) := by
  show Agree SameStore ((C L >>= fun _ => op.run) w) ((C L >>= fun _ => op.run) v)
  rw [bind_apply, bind_apply]
  obtain ⟨hn, hl⟩ := h
  by_cases hL : L = 0
  · subst hL
    simp [C, bind_apply, ld_list, Agree, SameStore, hn, hl]
  · cases hq : v.lists L with
    | none =>
      have hqw : w.lists L = none := by rw [hl]; exact hq
      simp [C, bind_apply, ld_list, hL, hq, hqw, Agree, SameStore, hn, hl]
    | some l =>
      have hqw : w.lists L = some l := by rw [hl]; exact hq
      rw [C_eq hL hq, C_eq hL hqw]
      exact Agree_weaken (Resp_run op (w.arm L) (v.arm L) ⟨hn, hl, rfl⟩)

theorem execList_agree (L : Ptr) (ops : List Op) :
    ∀ {w v : World}, SameStore w v →
      Agree SameStore (execList L ops w) (execList L ops v) := by
  induction ops with
  | nil => intro w v h; exact ⟨rfl, h⟩
  | cons op ops ih =>
    intro w v h
    have h1 := exec_agree L op h
    show Agree SameStore
      ((exec L op >>= fun r => execList L ops >>= fun rs => pure (r :: rs)) w)
      ((exec L op >>= fun r => execList L ops >>= fun rs => pure (r :: rs)) v)
    rw [bind_apply, bind_apply]
    cases hw : exec L op w with
    | ok a w1 =>
      cases hv : exec L op v with
      | ok b v1 =>
        rw [hw, hv] at h1
        obtain ⟨rfl, h2⟩ := h1
        have h3 := ih h2
        simp only [bind_apply]
        cases hw2 : execList L ops w1 with
        | ok as w2 =>
          cases hv2 : execList L ops v1 with
          | ok bs v2 =>
            rw [hw2, hv2] at h3
            exact ⟨by rw [h3.1], h3.2⟩
          | err f v2 => rw [hw2, hv2] at h3; exact h3.elim
        | err e w2 =>
          cases hv2 : execList L ops v1 with
          | ok bs v2 => rw [hw2, hv2] at h3; exact h3.elim
          | err f v2 => rw [hw2, hv2] at h3; exact h3
      | err e v1 => rw [hw, hv] at h1; exact h1.elim
    | err e w1 =>
      cases hv : exec L op v with
      | ok b v1 => rw [hw, hv] at h1; exact h1.elim
      | err f v1 => rw [hw, hv] at h1; exact h1

theorem ReadOnly_pure {α : Type} (a : α) : ReadOnly (pure a : M α) :=
  fun _ => ⟨rfl, rfl⟩

theorem ReadOnly_bind {α β : Type} {m : M α} {f : α → M β} (hm : ReadOnly m)
    (hf : ∀ a, ReadOnly (f a)) : ReadOnly (m >>= f) := by
  intro w
  have h1 := hm w
  rw [bind_apply]
  cases hw : m w with
  | ok a w1 =>
    rw [hw] at h1
    have h2 := hf a w1
    exact ⟨h2.1.trans h1.1, h2.2.trans h1.2⟩
  | err e w1 =>
    rw [hw] at h1
    exact h1

theorem ReadOnly_ite {α : Type} {c : Prop} [Decidable c] {a b : M α} (ha : ReadOnly a)
    (hb : ReadOnly b) : ReadOnly (if c then a else b) := by
  split
  · exact ha
  · exact hb

theorem ReadOnly_ld_node (p : Ptr) : ReadOnly (ld_node p) := by
  intro w
  by_cases hp : p = 0 <;> cases hq : w.nodes p <;>
    simp [SameStore, Res.world, ld_node, hp, hq]

theorem ReadOnly_ld_list (p : Ptr) : ReadOnly (ld_list p) := by
  intro w
  by_cases hp : p = 0 <;> cases hq : w.lists p <;>
    simp [SameStore, Res.world, ld_list, hp, hq]

theorem ReadOnly_FUNC_THIS_N : ReadOnly FUNC_THIS_N := by
  intro w
  by_cases hc : w.N_guard.S_C_safety = 0 ∨ w.N_guard.S_this = 0 <;>
    simp [SameStore, Res.world, FUNC_THIS_N, FUNC_THIS, hc]

theorem ReadOnly_C (L : Ptr) : ReadOnly (C L) :=
  ReadOnly_bind (ReadOnly_ld_list L) fun _ => fun _ => ⟨rfl, rfl⟩

theorem ReadOnly_N_get_node_loop (k : Nat) : ∀ p, ReadOnly (N_get_node_loop k p) := by
  induction k with
  | zero => exact fun p => ReadOnly_pure p
  | succ k ih => exact fun p => ReadOnly_bind (ReadOnly_ld_node p) fun nd => ih nd.next

theorem ReadOnly_N_get_node (i : Nat) : ReadOnly (N_get_node i) := by
  unfold N_get_node
  repeat (first
    | exact ReadOnly_pure _ | exact ReadOnly_ld_list _
    | exact ReadOnly_N_get_node_loop _ _
    | exact ReadOnly_FUNC_THIS_N | apply ReadOnly_bind | apply ReadOnly_ite | intro _)

theorem ReadOnly_N_get (i : Nat) : ReadOnly (N_get i) :=
  ReadOnly_bind ReadOnly_FUNC_THIS_N fun self => ReadOnly_bind (ReadOnly_C self) fun _ =>
    ReadOnly_bind (ReadOnly_N_get_node i) fun _ =>
      ReadOnly_ite (ReadOnly_bind (ReadOnly_ld_node _) fun _ => ReadOnly_pure _)
        (ReadOnly_pure _)

theorem ReadOnly_exec (L : Ptr) {op : Op} (h : op.isLookup = true) :
    ReadOnly (exec L op) := by
  cases op with
  | get_node i => exact ReadOnly_bind (ReadOnly_C L) fun _ => ReadOnly_N_get_node i
  | get i => exact ReadOnly_bind (ReadOnly_C L) fun _ => ReadOnly_N_get i
  | _ => exact Bool.noConfusion h

theorem ReadOnly_execList (L : Ptr) (ops : List Op) (h : ∀ o ∈ ops, o.isLookup = true) :
    ReadOnly (execList L ops) := by
  induction ops with
  | nil => exact ReadOnly_pure _
  | cons op ops ih =>
    exact ReadOnly_bind (ReadOnly_exec L (h op (List.mem_cons_self _ _))) fun _ =>
      ReadOnly_bind (ih fun o ho => h o (List.mem_cons_of_mem _ ho)) fun _ =>
        ReadOnly_pure _

/-- C19: on every list, whatever its chain, `get_node( index )` and `get( index )` leave
every node and every list record, so `size`, `front`, `back` and every `item`,
`previous` and `next`, as they were, whether they return or stop; so after any number
of lookups each later sequence of list operations has the outcome it would have had
without them: the same results or the same error, and the same nodes and list records
at the end. -/
theorem lookups_read_only (w : World) (L : Ptr) (index : Nat) (lookups later : List Op)
    (hlook : ∀ o ∈ lookups, o.isLookup = true) :
    ((exec L (Op.get_node index) w).world.nodes = w.nodes ∧
        (exec L (Op.get_node index) w).world.lists = w.lists) ∧
      ((exec L (Op.get index) w).world.nodes = w.nodes ∧
        (exec L (Op.get index) w).world.lists = w.lists) ∧
      ((execList L lookups w).world.nodes = w.nodes ∧
        (execList L lookups w).world.lists = w.lists) ∧
      Agree SameStore (execList L later (execList L lookups w).world)
        (execList L later w) := by
  have h := ReadOnly_execList L lookups hlook w
  exact ⟨ReadOnly_exec L (Eq.refl (Op.get_node index).isLookup) w,
    ReadOnly_exec L (Eq.refl (Op.get index).isLookup) w, h, execList_agree L later h⟩

/-- Witness for C19: three lookups on the list built by two pushes, then a removal and
a lookup. -/
theorem lookups_read_only_witness :
    ((exec 1 (Op.get_node 1) (pushFronts 1 2)).world.nodes = (pushFronts 1 2).nodes ∧
        (exec 1 (Op.get_node 1) (pushFronts 1 2)).world.lists = (pushFronts 1 2).lists) ∧
      ((exec 1 (Op.get 1) (pushFronts 1 2)).world.nodes = (pushFronts 1 2).nodes ∧
        (exec 1 (Op.get 1) (pushFronts 1 2)).world.lists = (pushFronts 1 2).lists) ∧
      ((execList 1 [Op.get 0, Op.get_node 1, Op.get 5] (pushFronts 1 2)).world.nodes =
          (pushFronts 1 2).nodes ∧
        (execList 1 [Op.get 0, Op.get_node 1, Op.get 5] (pushFronts 1 2)).world.lists =
          (pushFronts 1 2).lists) ∧
      Agree SameStore
        (execList 1 [Op.remove 0, Op.get 0]
          (execList 1 [Op.get 0, Op.get_node 1, Op.get 5] (pushFronts 1 2)).world)
        (execList 1 [Op.remove 0, Op.get 0] (pushFronts 1 2)) :=
  lookups_read_only (pushFronts 1 2) 1 1 [Op.get 0, Op.get_node 1, Op.get 5]
    [Op.remove 0, Op.get 0] (by decide)

end Moo
